import Mathlib

/-!
Shallow embedding of `truthiness/truthtable.py`.

Values flowing through conditions are Python ints and bools; Python 2
compares and mixes them numerically (`True == 1`), so `Value` carries both
and all comparisons and arithmetic go through `Value.asInt`.  Python
exceptions (`AssertionError`, `TypeError` from `None - 1`, `IndexError`
from indexing an empty list, `KeyError` from dict lookup, and the library's
`UnsupportedCondition`) are modelled with an `Except PyErr` result.
-/

namespace Truthiness

/-- Python scalar values used by the table: ints and bools. -/
inductive Value where
  | int (n : Int)
  | bool (b : Bool)
deriving DecidableEq, Repr

/-- Numeric view of a value; Python 2 treats `True` as `1` and `False` as `0`. -/
def Value.asInt : Value → Int
  | .int n => n
  | .bool b => if b then 1 else 0

/-- Python `==` on int/bool values (numeric). -/
def veq (a b : Value) : Bool := a.asInt = b.asInt

/-- Python `<` on int/bool values (numeric). -/
def vlt (a b : Value) : Bool := a.asInt < b.asInt

/-- Python `<=` on int/bool values (numeric). -/
def vle (a b : Value) : Bool := a.asInt ≤ b.asInt

/-- Python `v + 1`: the result is an int. -/
def vinc (a : Value) : Value := .int (a.asInt + 1)

/-- Python `v - 1`: the result is an int. -/
def vdec (a : Value) : Value := .int (a.asInt - 1)

/-- Python exceptions that the embedded code can raise. -/
inductive PyErr where
  | unsupportedCondition (domainName : String) (conditionName : String)
  | assertionError (site : String)
  | typeError
  | indexError
  | keyError
deriving DecidableEq, Repr

/-- The seven condition classes of `truthtable.py` as a closed sum.
`RangeCondition`'s constructor assertion `min <= max` is checked at the one
place the library itself builds ranges (`IntDomain.checkCoverage`). -/
inductive Condition where
  | EqualityCondition (value : Value)
  | InequalityCondition (value : Value)
  | LessThanCondition (value : Value)
  | LessThanOrEqualToCondition (value : Value)
  | GreaterThanCondition (value : Value)
  | GreaterThanOrEqualToCondition (value : Value)
  | RangeCondition (min max : Value)
deriving DecidableEq, Repr

namespace Condition

/-- The `sort_key` attribute set by the constructors: the raw constructor
value, and for `RangeCondition` its `min`. -/
def sort_key : Condition → Value
  | .EqualityCondition v => v
  | .InequalityCondition v => v
  | .LessThanCondition v => v
  | .LessThanOrEqualToCondition v => v
  | .GreaterThanCondition v => v
  | .GreaterThanOrEqualToCondition v => v
  | .RangeCondition mn _ => mn

/-- The `lowest()` methods: smallest admitted value, `None` when unbounded
below. -/
def lowest : Condition → Option Value
  | .EqualityCondition v => some v
  | .InequalityCondition _ => none
  | .LessThanCondition _ => none
  | .LessThanOrEqualToCondition _ => none
  | .GreaterThanCondition v => some (vinc v)
  | .GreaterThanOrEqualToCondition v => some v
  | .RangeCondition mn _ => some mn

/-- The `highest()` methods: largest admitted value, `None` when unbounded
above. -/
def highest : Condition → Option Value
  | .EqualityCondition v => some v
  | .InequalityCondition _ => none
  | .LessThanCondition v => some (vdec v)
  | .LessThanOrEqualToCondition v => some v
  | .GreaterThanCondition _ => none
  | .GreaterThanOrEqualToCondition _ => none
  | .RangeCondition _ mx => some mx

/-- The `matches` methods: `SimpleOperatorCondition.matches(other)` is
`operator(other, self.value)`, and `RangeCondition.matches` is the two-sided
bound check. -/
def matchesVal : Condition → Value → Bool
  | .EqualityCondition v, x => veq x v
  | .InequalityCondition v, x => !(veq x v)
  | .LessThanCondition v, x => vlt x v
  | .LessThanOrEqualToCondition v, x => vle x v
  | .GreaterThanCondition v, x => vlt v x
  | .GreaterThanOrEqualToCondition v, x => vle v x
  | .RangeCondition mn mx, x => vle mn x && vle x mx

/-- Python `==` between condition objects: same class and numerically equal
stored values (so `EqualityCondition(True) == EqualityCondition(1)`). -/
def condEq : Condition → Condition → Bool
  | .EqualityCondition a, .EqualityCondition b => veq a b
  | .InequalityCondition a, .InequalityCondition b => veq a b
  | .LessThanCondition a, .LessThanCondition b => veq a b
  | .LessThanOrEqualToCondition a, .LessThanOrEqualToCondition b => veq a b
  | .GreaterThanCondition a, .GreaterThanCondition b => veq a b
  | .GreaterThanOrEqualToCondition a, .GreaterThanOrEqualToCondition b => veq a b
  | .RangeCondition a b, .RangeCondition c d => veq a c && veq b d
  | _, _ => false

/-- Python class name of a condition, used in `UnsupportedCondition`
diagnostics. -/
def typeName : Condition → String
  | .EqualityCondition _ => "EqualityCondition"
  | .InequalityCondition _ => "InequalityCondition"
  | .LessThanCondition _ => "LessThanCondition"
  | .LessThanOrEqualToCondition _ => "LessThanOrEqualToCondition"
  | .GreaterThanCondition _ => "GreaterThanCondition"
  | .GreaterThanOrEqualToCondition _ => "GreaterThanOrEqualToCondition"
  | .RangeCondition _ _ => "RangeCondition"

/-- Test for `isinstance(arg, EqualityCondition)`. -/
def isEquality : Condition → Bool
  | .EqualityCondition _ => true
  | _ => false

/-- Test for `isinstance(cond, InequalityCondition)`. -/
def isInequality : Condition → Bool
  | .InequalityCondition _ => true
  | _ => false

end Condition

open Condition

/-- The rewriting loop at the top of `sortConditions`: each
`InequalityCondition(v)` is replaced by `LessThanCondition(v)` followed by
`GreaterThanCondition(v)`; everything else is appended unchanged. -/
def expandInequalities : List Condition → List Condition
  | [] => []
  | c :: rest =>
    match c with
    | .InequalityCondition v =>
        .LessThanCondition v :: .GreaterThanCondition v :: expandInequalities rest
    | c => c :: expandInequalities rest

/-- The comparison used by `sorted(real_conds, key=lambda x: x.sort_key)`:
Python 2 compares the int/bool sort keys numerically. -/
def condLE (a b : Condition) : Prop := a.sort_key.asInt ≤ b.sort_key.asInt

instance : DecidableRel condLE := fun a b => Int.decLe a.sort_key.asInt b.sort_key.asInt

instance : IsTotal Condition condLE := ⟨fun a b => Int.le_total a.sort_key.asInt b.sort_key.asInt⟩

instance : IsTrans Condition condLE := ⟨fun _ _ _ h h' => Int.le_trans h h'⟩

/-- `sortConditions`: rewrite inequalities, then stably sort ascending by
`sort_key` (Python's `sorted` is stable; insertion sort over a total
preorder produces the same, stable, result). -/
def sortConditions (conds : List Condition) : List Condition :=
  List.insertionSort condLE (expandInequalities conds)

/-- EnumDomain's membership loop: raise `UnsupportedCondition` at the first
argument that is not an `EqualityCondition`. -/
def enumCheckArgs : List Condition → Except PyErr Unit
  | [] => .ok ()
  | arg :: rest =>
    if arg.isEquality then enumCheckArgs rest
    else .error (.unsupportedCondition "EnumDomain" arg.typeName)

/-- Python `set(...)` over values: keep the first occurrence of each
numeric value (iteration order of a CPython set is unspecified; the claims
only constrain membership). -/
def dedupValues : List Value → List Value
  | [] => []
  | v :: rest => v :: (dedupValues rest).filter (fun w => !veq w v)

/-- `EnumDomain.checkCoverage`: after the equality check, return one
`EqualityCondition` per domain value not among the arguments' values. -/
def enumDomainCheckCoverage (values : List Value) (args : List Condition) :
    Except PyErr (List Condition) := do
  enumCheckArgs args
  let other_values := args.filterMap (fun a =>
    match a with
    | .EqualityCondition v => some v
    | _ => none)
  pure (((dedupValues values).filter
      (fun x => !other_values.any (fun v => veq x v))).map
    (fun x => .EqualityCondition x))

/-- Low-end complement of `IntDomain.checkCoverage`: when `conditions[0]`
is bounded below, the "nice" inverse referring to the same number. -/
def intPreGap (c0 : Condition) : Option Condition :=
  match c0.lowest with
  | none => none
  | some lo =>
    match c0 with
    | .GreaterThanCondition _ => some (.LessThanOrEqualToCondition (vdec lo))
    | _ => some (.LessThanCondition lo)

/-- High-end complement of `IntDomain.checkCoverage`: when `conditions[-1]`
is bounded above. -/
def intPostGap (clast : Condition) : Option Condition :=
  match clast.highest with
  | none => none
  | some hi =>
    match clast with
    | .LessThanCondition _ => some (.GreaterThanOrEqualToCondition (vinc hi))
    | _ => some (.GreaterThanCondition hi)

/-- View of an optional synthesized gap as a list segment. -/
def optToList : Option Condition → List Condition
  | some g => [g]
  | none => []

/-- The sweep loop of `IntDomain.checkCoverage` over
`hypothetical_conditions[1:]`.  A condition with undefined `lowest()` makes
Python evaluate `None - 1` (a `TypeError`); an interior gap with
`min > max` fails `RangeCondition`'s constructor assertion. -/
def intSweep (highest_covered : Option Value) : List Condition → Except PyErr (List Condition)
  | [] => .ok []
  | condition :: rest =>
    match highest_covered with
    | none => .ok []
    | some hc =>
      match condition.lowest with
      | none => .error .typeError
      | some lo =>
        if veq (vdec lo) hc then intSweep condition.highest rest
        else if veq (vinc hc) (vdec lo) then
          (intSweep condition.highest rest).map
            (fun gaps => .EqualityCondition (vinc hc) :: gaps)
        else if vle (vinc hc) (vdec lo) then
          (intSweep condition.highest rest).map
            (fun gaps => .RangeCondition (vinc hc) (vdec lo) :: gaps)
        else .error (.assertionError "range-min-max")

/-- Body of `IntDomain.checkCoverage` after sorting, for a non-empty sorted
list `c0 :: rest`: synthesize end complements, sweep, then prepend/append
the complements. -/
def intAfterSort (c0 : Condition) (rest : List Condition) : Except PyErr (List Condition) :=
  let pre_gap := intPreGap c0
  let post_gap := intPostGap (rest.getLastD c0)
  match optToList pre_gap ++ c0 :: rest ++ optToList post_gap with
  | [] => .error .indexError
  | h0 :: htail =>
    match h0.highest with
    | none => .error (.assertionError "highest-covered")
    | some hc =>
      (intSweep (some hc) htail).map
        (fun gaps => optToList pre_gap ++ gaps ++ optToList post_gap)

/-- `IntDomain.checkCoverage`.  `conditions[0]` on an empty sorted list is
an `IndexError`. -/
def intDomainCheckCoverage (args : List Condition) : Except PyErr (List Condition) :=
  match sortConditions args with
  | [] => .error .indexError
  | c0 :: rest => intAfterSort c0 rest

/-- The two `Domain` subclasses that implement `checkCoverage`. -/
inductive Domain where
  | EnumDomain (values : List Value)
  | IntDomain
deriving DecidableEq, Repr

/-- `BoolDomain` is `EnumDomain([True, False])`. -/
def BoolDomain : Domain := .EnumDomain [.bool true, .bool false]

/-- Dispatch of the `checkCoverage` method. -/
def Domain.checkCoverage : Domain → List Condition → Except PyErr (List Condition)
  | .EnumDomain values, args => enumDomainCheckCoverage values args
  | .IntDomain, args => intDomainCheckCoverage args

/-- A table column: `Variable(name, domain)`. -/
structure Variable where
  name : String
  domain : Domain
deriving DecidableEq, Repr

/-- A table row: the per-variable condition dict (modelled as an
association list in dict insertion order) and the row's result. -/
structure Row (ρ : Type) where
  conditions : List (String × Condition)
  result : ρ

/-- `TruthTable`: declared columns and the appended rows. -/
structure TruthTable (ρ : Type) where
  columns : List Variable
  table : List (Row ρ)

/-- Dict lookup on an association list (first binding wins, as dict keys
are unique). -/
def lookupCond (conds : List (String × Condition)) (k : String) : Option Condition :=
  (conds.find? (fun p => p.1 == k)).map (fun p => p.2)

/-- Dict lookup for input value assignments. -/
def lookupVal (values : List (String × Value)) (k : String) : Option Value :=
  (values.find? (fun p => p.1 == k)).map (fun p => p.2)

/-- The assert of `addCondition`: `set(values.keys()) == set(column names)`. -/
def sameKeySet (values : List (String × Condition)) (names : List String) : Bool :=
  values.all (fun p => names.contains p.1) && names.all (fun n => values.any (fun p => p.1 == n))

/-- `TruthTable.addCondition`: check only the key sets, then append the row. -/
def TruthTable.addCondition (tt : TruthTable ρ) (values : List (String × Condition))
    (result : ρ) : Except PyErr (TruthTable ρ) :=
  if sameKeySet values (tt.columns.map (fun c => c.name)) then
    .ok { tt with table := tt.table ++ [⟨values, result⟩] }
  else .error (.assertionError "add-row-keys")

/-- The inner loop of `evaluate` over one row's conditions: a missing input
key is a `KeyError`; a failed match breaks out with `false`. -/
def rowConditionsMatch (values : List (String × Value)) :
    List (String × Condition) → Except PyErr Bool
  | [] => .ok true
  | kc :: rest =>
    match lookupVal values kc.1 with
    | none => .error .keyError
    | some v => if kc.2.matchesVal v then rowConditionsMatch values rest else .ok false

/-- The row scan of `evaluate`: first fully matching row wins; falling off
the end returns Python `None`. -/
def evaluateRows (values : List (String × Value)) : List (Row ρ) → Except PyErr (Option ρ)
  | [] => .ok none
  | row :: rest => do
    let b ← rowConditionsMatch values row.conditions
    if b then pure (some row.result) else evaluateRows values rest

/-- `TruthTable.evaluate`. -/
def TruthTable.evaluate (tt : TruthTable ρ) (values : List (String × Value)) :
    Except PyErr (Option ρ) :=
  evaluateRows values tt.table

/-- `[x.conditions[column.name] for x in self._table]`. -/
def columnConds (rows : List (Row ρ)) (name : String) : Except PyErr (List Condition) :=
  match rows with
  | [] => .ok []
  | row :: rest =>
    match lookupCond row.conditions name with
    | none => .error .keyError
    | some c => (columnConds rest name).map (fun cs => c :: cs)

/-- Debug body of `findGaps` for one other column: collect that column's
conditions over the matching rows and run its `checkCoverage`, discarding
the result (the `print` statements are pure console output). -/
def debugOtherColumn (combinations : List (Row ρ)) (other : Variable) : Except PyErr Unit := do
  let other_column_values ← columnConds combinations other.name
  let _ ← other.domain.checkCoverage other_column_values
  pure ()

/-- Debug loop of `findGaps` over the other columns; `other_column == column`
is object identity in the source, which the column index models. -/
def debugOthers (combinations : List (Row ρ)) (i : Nat) :
    Nat → List Variable → Except PyErr Unit
  | _, [] => .ok ()
  | j, other :: rest =>
    if j = i then debugOthers combinations i (j + 1) rest
    else do
      debugOtherColumn combinations other
      debugOthers combinations i (j + 1) rest

/-- Debug body of `findGaps` for one condition of the current column:
filter the rows whose condition for this column `==` the given one, then
probe every other column. -/
def debugCondition (tt : TruthTable ρ) (i : Nat) (col : Variable)
    (condition : Condition) : Except PyErr Unit := do
  let pairs ← tt.table.mapM (fun row =>
    match lookupCond row.conditions col.name with
    | none => Except.error PyErr.keyError
    | some c => Except.ok (row, c))
  let combinations := ((pairs.filter (fun rc => condEq rc.2 condition)).map (fun rc => rc.1))
  debugOthers combinations i 0 tt.columns

/-- Iteration of the debug loop over `this_column_values + this_column_gaps`. -/
def debugConditions (tt : TruthTable ρ) (i : Nat) (col : Variable) :
    List Condition → Except PyErr Unit
  | [] => .ok ()
  | condition :: rest => do
    debugCondition tt i col condition
    debugConditions tt i col rest

/-- One iteration of the column loop of `findGaps`. -/
def findGapsColumn (tt : TruthTable ρ) (i : Nat) (col : Variable) :
    Except PyErr (String × List Condition) := do
  let this_column_values ← columnConds tt.table col.name
  let this_column_gaps ← col.domain.checkCoverage this_column_values
  debugConditions tt i col (this_column_values ++ this_column_gaps)
  pure (col.name, this_column_gaps)

/-- The column loop of `findGaps`, with the running column index (standing
for object identity of the current column). -/
def findGapsColumns (tt : TruthTable ρ) : Nat → List Variable →
    Except PyErr (List (String × List Condition))
  | _, [] => .ok []
  | i, col :: rest => do
    let entry ← findGapsColumn tt i col
    let entries ← findGapsColumns tt (i + 1) rest
    pure (entry :: entries)

/-- `TruthTable.findGaps`: the returned list holds, per column, the
single-key dict `{column.name: this_column_gaps}`. -/
def TruthTable.findGaps (tt : TruthTable ρ) : Except PyErr (List (String × List Condition)) :=
  findGapsColumns tt 0 tt.columns

/-!
Specification-side definitions: decidable predicates used to state the
claims (separation of the sorted conditions, validity of ranges, the
first-match semantics of `evaluate`), and the invariants driving the sweep
correctness proof.
-/

/-- Lower-bound semantics of an optional bound over integers. -/
def optLB : Option Value → Int → Prop
  | none, _ => True
  | some v, x => v.asInt ≤ x

/-- Upper-bound semantics of an optional bound over integers. -/
def optUB : Option Value → Int → Prop
  | none, _ => True
  | some v, x => x ≤ v.asInt

/-- Some condition of the list matches the integer `x`. -/
def lAny (l : List Condition) (x : Int) : Prop :=
  ∃ c ∈ l, c.matchesVal (.int x) = true

/-- A condition respects the `RangeCondition` constructor's `min <= max`
assertion (all other shapes trivially do). -/
def condValidB (c : Condition) : Bool :=
  match c with
  | .RangeCondition mn mx => decide (mn.asInt ≤ mx.asInt)
  | _ => true

/-- Every `RangeCondition` of the list satisfies its constructor's
`min <= max` assertion. -/
def rangesValidB (l : List Condition) : Bool :=
  l.all condValidB

/-- Strict separation of a sorted condition list: every adjacent pair has a
defined `highest()` on the left and a defined `lowest()` on the right, with
the left bound strictly below the right bound. -/
def sepChainB : List Condition → Bool
  | [] => true
  | [_] => true
  | a :: b :: rest =>
    (match a.highest, b.lowest with
     | some ha, some lb => decide (ha.asInt < lb.asInt)
     | _, _ => false) && sepChainB (b :: rest)

/-- Invariant under which the sweep starting at covered bound `e` runs to
completion: each condition is bounded below strictly above `e`, is
consistent (`lowest - 1 <= highest`), and hands a defined bound to the next
step, except that the final condition may be unbounded above. -/
def sweepOK (e : Int) : List Condition → Prop
  | [] => True
  | c :: rest =>
    ∃ lo, c.lowest = some lo ∧ e < lo.asInt ∧
      ((∃ h, c.highest = some h ∧ lo.asInt - 1 ≤ h.asInt ∧ sweepOK h.asInt rest)
        ∨ (c.highest = none ∧ rest = []))

/-- Upper limit reached by the sweep: an integer is below it when it does
not exceed the last covered bound (no limit once an unbounded-above
condition is reached). -/
def sweepUB : Int → List Condition → Int → Prop
  | e, [], x => x ≤ e
  | _, c :: rest, x =>
    match c.highest with
    | none => True
    | some h => sweepUB h.asInt rest x

/-- The high-end complement shape stated by the specification (after
correction): `GreaterThanOrEqual(highest+1)` for a `LessThan` condition,
`GreaterThan(highest)` otherwise. -/
def highGapFor (c : Condition) (hv : Value) : Condition :=
  match c with
  | .LessThanCondition _ => .GreaterThanOrEqualToCondition (vinc hv)
  | _ => .GreaterThanCondition hv

/-- Shape clause of the gap-output claim: an Equality, a Range, or one of
the open-ended Less/Greater variants (everything but an Inequality). -/
def gapShape (g : Condition) : Prop :=
  (∃ v, g = .EqualityCondition v)
  ∨ (∃ mn mx, g = .RangeCondition mn mx)
  ∨ (∃ v, g = .LessThanCondition v)
  ∨ (∃ v, g = .LessThanOrEqualToCondition v)
  ∨ (∃ v, g = .GreaterThanCondition v)
  ∨ (∃ v, g = .GreaterThanOrEqualToCondition v)

/-- First-match semantics of `evaluate`: all of the row's conditions match
the corresponding input values. -/
def rowMatchesB (values : List (String × Value)) (row : Row ρ) : Bool :=
  row.conditions.all (fun kc =>
    match lookupVal values kc.1 with
    | some v => kc.2.matchesVal v
    | none => false)

/-- A one-column boolean table with no rows, used to exercise
`addCondition`'s validation. -/
def ttEnumGT : TruthTable Nat := ⟨[⟨"a", BoolDomain⟩], []⟩

/-- A one-column integer table whose two rows overlap (every input above
zero matches both), used to exercise first-match evaluation. -/
def ttFirstWins : TruthTable String :=
  ⟨[⟨"a", Domain.IntDomain⟩],
   [⟨[("a", .GreaterThanCondition (.int 0))], "first"⟩,
    ⟨[("a", .GreaterThanCondition (.int (-5)))], "second"⟩]⟩

/-- A two-column table (boolean and integer) with a single row; the gap
report's debug combination code probes the integer domain with an empty
condition collection here. -/
def ttCross : TruthTable String :=
  ⟨[⟨"a", BoolDomain⟩, ⟨"c", Domain.IntDomain⟩],
   [⟨[("a", .EqualityCondition (.bool true)), ("c", .LessThanCondition (.int 6))], "woo"⟩]⟩

/-- The gap report computed for `ttFirstWins`. -/
def ttFirstWinsGaps : List (String × List Condition) :=
  [("a", [.LessThanOrEqualToCondition (.int (-5))])]

/-!
Theorems.  First a toolbox of lemmas about the condition algebra, the
normalizing sort and the sweep, then one theorem per claim (with witnesses
and counterexamples where required).
-/

/-- A condition that is not an inequality matches an integer exactly when
the integer lies within its derived bounds. -/
theorem matchesVal_iff_bounds (c : Condition) (hne : c.isInequality = false) (x : Int) :
    c.matchesVal (.int x) = true ↔ optLB c.lowest x ∧ optUB c.highest x := by
  cases c <;>
    simp_all [Condition.matchesVal, Condition.lowest, Condition.highest,
      Condition.isInequality, optLB, optUB, veq, vle, vlt, vinc, vdec, Value.asInt] <;>
    omega

/-- The expansion step removes every inequality condition. -/
theorem expand_no_inequality (conds : List Condition) :
    ∀ c ∈ expandInequalities conds, c.isInequality = false := by
  induction conds with
  | nil => simp [expandInequalities]
  | cons c rest ih =>
    cases c <;>
      simpa [expandInequalities, Condition.isInequality] using
        fun c hc => ih c hc

/-- Unfolding lemma for `lAny` over an empty list. -/
theorem lAny_nil (x : Int) : ¬ lAny [] x := by
  simp [lAny]

/-- Unfolding lemma for `lAny` over a cons cell. -/
theorem lAny_cons (c : Condition) (l : List Condition) (x : Int) :
    lAny (c :: l) x ↔ (c.matchesVal (.int x) = true ∨ lAny l x) := by
  simp [lAny]

/-- Unfolding lemma for `lAny` over an append. -/
theorem lAny_append (l l' : List Condition) (x : Int) :
    lAny (l ++ l') x ↔ (lAny l x ∨ lAny l' x) := by
  constructor
  · rintro ⟨c, hc, hm⟩
    rcases List.mem_append.mp hc with h | h
    · exact Or.inl ⟨c, h, hm⟩
    · exact Or.inr ⟨c, h, hm⟩
  · rintro (⟨c, hc, hm⟩ | ⟨c, hc, hm⟩)
    · exact ⟨c, List.mem_append.mpr (Or.inl hc), hm⟩
    · exact ⟨c, List.mem_append.mpr (Or.inr hc), hm⟩

/-- The expansion step preserves which integers are matched. -/
theorem expand_lAny (conds : List Condition) (x : Int) :
    lAny (expandInequalities conds) x ↔ lAny conds x := by
  induction conds with
  | nil => simp [expandInequalities]
  | cons c rest ih =>
    cases c <;>
      simp only [expandInequalities, lAny_cons, ih, Condition.matchesVal, veq, vlt,
        Value.asInt, decide_eq_true_eq, Bool.not_eq_true', decide_eq_false_iff_not] <;>
      by_cases hl : lAny rest x <;> simp [hl] <;> omega

/-- The expansion of a non-empty list is non-empty. -/
theorem expand_ne_nil (conds : List Condition) (h : conds ≠ []) :
    expandInequalities conds ≠ [] := by
  cases conds with
  | nil => exact absurd rfl h
  | cons c rest => cases c <;> simp [expandInequalities]

/-- `sortConditions` permutes the expansion of its input. -/
theorem sortConditions_perm (conds : List Condition) :
    List.Perm (sortConditions conds) (expandInequalities conds) :=
  List.perm_insertionSort condLE (expandInequalities conds)

/-- The sorted output contains no inequality conditions. -/
theorem sortConditions_no_inequality (conds : List Condition) :
    ∀ c ∈ sortConditions conds, c.isInequality = false :=
  fun c hc =>
    expand_no_inequality conds c ((sortConditions_perm conds).mem_iff.mp hc)

/-- Sorting a non-empty input yields a non-empty output. -/
theorem sortConditions_ne_nil (conds : List Condition) (h : conds ≠ []) :
    sortConditions conds ≠ [] := by
  intro hnil
  have hlen := (sortConditions_perm conds).length_eq
  rw [hnil] at hlen
  exact expand_ne_nil conds h (List.eq_nil_of_length_eq_zero hlen.symm)

/-- The sorted output matches the same integers as the raw input. -/
theorem sortConditions_lAny (conds : List Condition) (x : Int) :
    lAny (sortConditions conds) x ↔ lAny conds x := by
  constructor
  · rintro ⟨c, hc, hm⟩
    exact (expand_lAny conds x).mp ⟨c, (sortConditions_perm conds).mem_iff.mp hc, hm⟩
  · intro h
    obtain ⟨c, hc, hm⟩ := (expand_lAny conds x).mpr h
    exact ⟨c, (sortConditions_perm conds).mem_iff.mpr hc, hm⟩

/-- Filtering by an exact sort key commutes with `orderedInsert`: the
elements the insertion walks past are exactly those with a strictly
smaller key. -/
theorem filter_orderedInsert_sort_key (k : Int) (a : Condition) (l : List Condition) :
    (List.orderedInsert condLE a l).filter (fun c => c.sort_key.asInt = k) =
      if a.sort_key.asInt = k
      then a :: l.filter (fun c => c.sort_key.asInt = k)
      else l.filter (fun c => c.sort_key.asInt = k) := by
  induction l with
  | nil => by_cases hk : a.sort_key.asInt = k <;> simp [List.orderedInsert, List.filter, hk]
  | cons b l ih =>
    by_cases hab : condLE a b
    · rw [List.orderedInsert_of_le _ _ hab]
      by_cases hk : a.sort_key.asInt = k <;> simp [hk, List.filter]
    · have hba : b.sort_key.asInt < a.sort_key.asInt := by
        simpa [condLE, not_le] using hab
      have hstep : List.orderedInsert condLE a (b :: l) = b :: List.orderedInsert condLE a l := by
        simp [List.orderedInsert, hab]
      rw [hstep]
      by_cases hb : b.sort_key.asInt = k
      · by_cases hk : a.sort_key.asInt = k
        · omega
        · simp [List.filter, hb, hk, ih]
      · by_cases hk : a.sort_key.asInt = k <;> simp [List.filter, hb, hk, ih]

/-- Insertion sort by sort key is stable: the sublist of elements having
any fixed key is unchanged. -/
theorem filter_insertionSort_sort_key (k : Int) (l : List Condition) :
    (List.insertionSort condLE l).filter (fun c => c.sort_key.asInt = k) =
      l.filter (fun c => c.sort_key.asInt = k) := by
  induction l with
  | nil => rfl
  | cons a l ih =>
    rw [List.insertionSort, filter_orderedInsert_sort_key]
    by_cases hk : a.sort_key.asInt = k <;> simp [hk, ih, List.filter, decide_eq_true_eq]

/-- Claim C9 (confirmed): `sort_key` is the raw constructor value for all
seven condition shapes (for `RangeCondition`, the minimum); in particular
`GreaterThanCondition(5)` has sort key `5` although its lowest admitted
value is `6`. -/
theorem claim9_sort_key_is_raw_value :
    (∀ v, (Condition.EqualityCondition v).sort_key = v)
    ∧ (∀ v, (Condition.InequalityCondition v).sort_key = v)
    ∧ (∀ v, (Condition.LessThanCondition v).sort_key = v)
    ∧ (∀ v, (Condition.LessThanOrEqualToCondition v).sort_key = v)
    ∧ (∀ v, (Condition.GreaterThanCondition v).sort_key = v)
    ∧ (∀ v, (Condition.GreaterThanOrEqualToCondition v).sort_key = v)
    ∧ (∀ mn mx, (Condition.RangeCondition mn mx).sort_key = mn)
    ∧ (Condition.GreaterThanCondition (.int 5)).sort_key = .int 5
    ∧ (Condition.GreaterThanCondition (.int 5)).lowest = some (.int 6) :=
  ⟨fun _ => rfl, fun _ => rfl, fun _ => rfl, fun _ => rfl, fun _ => rfl,
   fun _ => rfl, fun _ _ => rfl, rfl, rfl⟩

/-- Claim C5 (confirmed): the nine reference input/output vectors of
`IntDomain.checkCoverage`. -/
theorem claim5_reference_vectors :
    intDomainCheckCoverage [.GreaterThanCondition (.int 5)]
        = .ok [.LessThanOrEqualToCondition (.int 5)]
    ∧ intDomainCheckCoverage [.GreaterThanOrEqualToCondition (.int 5)]
        = .ok [.LessThanCondition (.int 5)]
    ∧ intDomainCheckCoverage [.LessThanCondition (.int 5)]
        = .ok [.GreaterThanOrEqualToCondition (.int 5)]
    ∧ intDomainCheckCoverage [.LessThanOrEqualToCondition (.int 5)]
        = .ok [.GreaterThanCondition (.int 5)]
    ∧ intDomainCheckCoverage [.LessThanCondition (.int 0), .GreaterThanCondition (.int 10)]
        = .ok [.RangeCondition (.int 0) (.int 10)]
    ∧ intDomainCheckCoverage [.RangeCondition (.int 0) (.int 10)]
        = .ok [.LessThanCondition (.int 0), .GreaterThanCondition (.int 10)]
    ∧ intDomainCheckCoverage [.EqualityCondition (.int 0)]
        = .ok [.LessThanCondition (.int 0), .GreaterThanCondition (.int 0)]
    ∧ intDomainCheckCoverage [.InequalityCondition (.int 0)]
        = .ok [.EqualityCondition (.int 0)]
    ∧ intDomainCheckCoverage [.LessThanCondition (.int 0), .GreaterThanCondition (.int 0)]
        = .ok [.EqualityCondition (.int 0)] :=
  ⟨rfl, rfl, rfl, rfl, rfl, rfl, rfl, rfl, rfl⟩

/-- Claim C6 (confirmed): `sortConditions` rewrites every inequality into
its two strict pieces and passes every other shape through (the expansion
equals a flat map over the input), and its output is a permutation of that
expansion, ordered ascending by sort key and stable on equal keys.  The
embedding is a pure function of its input by construction. -/
theorem claim6_sortConditions (conds : List Condition) :
    expandInequalities conds
      = conds.flatMap (fun c =>
          match c with
          | .InequalityCondition v =>
              [Condition.LessThanCondition v, Condition.GreaterThanCondition v]
          | c => [c])
    ∧ List.Perm (sortConditions conds) (expandInequalities conds)
    ∧ List.Sorted condLE (sortConditions conds)
    ∧ ∀ k : Int, (sortConditions conds).filter (fun c => c.sort_key.asInt = k)
        = (expandInequalities conds).filter (fun c => c.sort_key.asInt = k) := by
  refine ⟨?_, sortConditions_perm conds, ?_, ?_⟩
  · induction conds with
    | nil => rfl
    | cons c rest ih => cases c <;> simp [expandInequalities, ih]
  · exact List.sorted_insertionSort condLE (expandInequalities conds)
  · intro k
    exact filter_insertionSort_sort_key k (expandInequalities conds)

/-- Numeric value equality in propositional form. -/
theorem veq_iff (a b : Value) : veq a b = true ↔ a.asInt = b.asInt := by
  simp [veq]

/-- Members of the deduplicated value list come from the original list. -/
theorem mem_dedupValues (vs : List Value) : ∀ w ∈ dedupValues vs, w ∈ vs := by
  induction vs with
  | nil => simp [dedupValues]
  | cons v rest ih =>
    intro w hw
    rw [dedupValues] at hw
    rcases List.mem_cons.mp hw with hw1 | hw1
    · exact hw1 ▸ List.mem_cons_self v rest
    · exact List.mem_cons_of_mem v (ih w (List.mem_of_mem_filter hw1))

/-- Every original value is represented (up to numeric equality) in the
deduplicated list. -/
theorem dedupValues_complete (vs : List Value) :
    ∀ v ∈ vs, ∃ w ∈ dedupValues vs, veq w v = true := by
  induction vs with
  | nil => simp
  | cons u rest ih =>
    intro v hv
    rcases List.mem_cons.mp hv with hv | hv
    · exact ⟨u, List.mem_cons_self u _, by simp [veq, hv]⟩
    · obtain ⟨w, hw, hwv⟩ := ih v hv
      by_cases hwu : veq w u = true
      · refine ⟨u, List.mem_cons_self u _, ?_⟩
        rw [veq_iff] at hwu hwv ⊢
        omega
      · refine ⟨w, List.mem_cons_of_mem u ?_, hwv⟩
        exact List.mem_filter.mpr ⟨hw, by simp [hwu]⟩

/-- No two members of the deduplicated list are numerically equal. -/
theorem dedupValues_pairwise (vs : List Value) :
    (dedupValues vs).Pairwise (fun a b => veq a b = false) := by
  induction vs with
  | nil => simp [dedupValues]
  | cons v rest ih =>
    refine List.pairwise_cons.mpr ⟨?_, ih.sublist (List.filter_sublist _)⟩
    intro b hb
    have := (List.mem_filter.mp hb).2
    simp only [Bool.not_eq_true', veq] at this ⊢
    simp only [decide_eq_false_iff_not] at this ⊢
    omega

/-- The equality check of `EnumDomain.checkCoverage` succeeds exactly on
all-equality inputs, and otherwise reports a non-equality argument's type. -/
theorem enumCheckArgs_spec (args : List Condition) :
    (enumCheckArgs args = .ok () ↔ ∀ a ∈ args, a.isEquality = true)
    ∧ ∀ e, enumCheckArgs args = .error e →
        ∃ a ∈ args, a.isEquality = false ∧ e = .unsupportedCondition "EnumDomain" a.typeName := by
  induction args with
  | nil => simp [enumCheckArgs]
  | cons a rest ih =>
    by_cases ha : a.isEquality = true
    · simp only [enumCheckArgs, ha, if_true]
      constructor
      · rw [ih.1]
        simp [ha]
      · intro e he
        obtain ⟨b, hb, hbe, hbt⟩ := ih.2 e he
        exact ⟨b, List.mem_cons_of_mem a hb, hbe, hbt⟩
    · simp only [enumCheckArgs, ha, if_false]
      constructor
      · simp only [Bool.not_eq_true] at ha
        constructor
        · intro h
          cases h
        · intro h
          exact absurd (h a (List.mem_cons_self a rest)) (by simp [ha])
      · intro e he
        refine ⟨a, List.mem_cons_self a rest, by simpa using ha, ?_⟩
        cases he
        rfl

/-- Claim C7 (confirmed): `EnumDomain.checkCoverage` raises
`UnsupportedCondition` (carrying the domain and offending condition types)
exactly when some argument is not an equality condition; otherwise its
result is one equality condition per domain value (numerically) absent
from the arguments' values, each value occurring once. -/
theorem claim7_enum_checkCoverage (values : List Value) (args : List Condition) :
    ((∃ e, enumDomainCheckCoverage values args = .error e) ↔ ∃ a ∈ args, a.isEquality = false)
    ∧ (∀ e, enumDomainCheckCoverage values args = .error e →
        ∃ a ∈ args, a.isEquality = false ∧ e = .unsupportedCondition "EnumDomain" a.typeName)
    ∧ ∀ gaps, enumDomainCheckCoverage values args = .ok gaps →
        (∀ g ∈ gaps, ∃ x, g = .EqualityCondition x)
        ∧ (∀ x : Value,
            (∃ w, Condition.EqualityCondition w ∈ gaps ∧ veq w x = true)
              ↔ ((∃ v ∈ values, veq v x = true)
                  ∧ ¬ ∃ u, Condition.EqualityCondition u ∈ args ∧ veq u x = true))
        ∧ gaps.Pairwise (fun g g2 => ∀ w u,
            g = Condition.EqualityCondition w → g2 = Condition.EqualityCondition u →
              veq w u = false) := by
  have hspec := enumCheckArgs_spec args
  rcases hchk : enumCheckArgs args with e | u
  · have hres : enumDomainCheckCoverage values args = .error e := by
      unfold enumDomainCheckCoverage
      rw [hchk]
      rfl
    obtain ⟨a, ha, hae, haty⟩ := hspec.2 e hchk
    refine ⟨⟨fun _ => ⟨a, ha, hae⟩, fun _ => ⟨e, hres⟩⟩, ?_, ?_⟩
    · intro e' he'
      rw [hres] at he'
      cases he'
      exact ⟨a, ha, hae, haty⟩
    · intro gaps hok
      rw [hres] at hok
      cases hok
  · have hall : ∀ a ∈ args, a.isEquality = true := hspec.1.mp (by rw [hchk])
    set fm : Condition → Option Value := fun a =>
      match a with
      | .EqualityCondition v => some v
      | _ => none with hfm
    set other : List Value := args.filterMap fm with hother
    set l0 : List Value :=
      (dedupValues values).filter (fun x => !other.any (fun v => veq x v)) with hl0
    have hres : enumDomainCheckCoverage values args
        = .ok (l0.map (fun x => .EqualityCondition x)) := by
      unfold enumDomainCheckCoverage
      rw [hchk]
      rfl
    have hmem_other : ∀ u : Value, u ∈ other ↔ Condition.EqualityCondition u ∈ args := by
      intro u
      rw [hother, List.mem_filterMap]
      constructor
      · rintro ⟨a, ha, hau⟩
        cases a <;> simp [hfm] at hau
        exact hau ▸ ha
      · intro h
        exact ⟨.EqualityCondition u, h, rfl⟩
    refine ⟨⟨?_, ?_⟩, ?_, ?_⟩
    · rintro ⟨e, he⟩
      rw [hres] at he
      cases he
    · rintro ⟨a, ha, hae⟩
      exact absurd (hall a ha) (by simp [hae])
    · intro e he
      rw [hres] at he
      cases he
    · intro gaps hok
      rw [hres] at hok
      cases hok
      refine ⟨?_, ?_, ?_⟩
      · intro g hg
        obtain ⟨x, _, hx⟩ := List.mem_map.mp hg
        exact ⟨x, hx.symm⟩
      · intro x
        constructor
        · rintro ⟨w, hw, hwx⟩
          obtain ⟨w', hw', hww⟩ := List.mem_map.mp hw
          cases hww
          have hwdedup := List.mem_filter.mp hw'
          have hwvals : w ∈ values := mem_dedupValues values w hwdedup.1
          refine ⟨⟨w, hwvals, hwx⟩, ?_⟩
          rintro ⟨u, hu, hux⟩
          have huo : u ∈ other := (hmem_other u).mpr hu
          have : other.any (fun v => veq w v) = true := by
            refine List.any_eq_true.mpr ⟨u, huo, ?_⟩
            rw [veq_iff] at hwx hux ⊢
            omega
          rw [this] at hwdedup
          exact absurd hwdedup.2 (by simp)
        · rintro ⟨⟨v, hv, hvx⟩, hno⟩
          obtain ⟨w, hwd, hwv⟩ := dedupValues_complete values v hv
          have hwx : veq w x = true := by
            rw [veq_iff] at hwv hvx ⊢
            omega
          have hfilter : (!other.any (fun v2 => veq w v2)) = true := by
            have hnone : ∀ u ∈ other, veq w u = false := by
              intro u huo
              cases h2 : veq w u
              · rfl
              · exfalso
                refine hno ⟨u, (hmem_other u).mp huo, ?_⟩
                rw [veq_iff] at h2 hwx ⊢
                omega
            cases hany : other.any (fun v2 => veq w v2)
            · rfl
            · obtain ⟨u, huo, hu⟩ := List.any_eq_true.mp hany
              rw [hnone u huo] at hu
              cases hu
          refine ⟨w, List.mem_map_of_mem _ (List.mem_filter.mpr ⟨hwd, hfilter⟩), hwx⟩
      · refine List.pairwise_map.mpr ?_
        refine List.Pairwise.imp ?_
          ((dedupValues_pairwise values).sublist (List.filter_sublist _))
        intro a b hab w u hw hu
        cases hw
        cases hu
        exact hab

/-- Claim C10 (confirmed): `addCondition` validates only that the supplied
key set equals the declared variable names — the conditions' shapes are
not inspected — so a `GreaterThanCondition` row on an `EnumDomain` variable
is accepted, and the `UnsupportedCondition` error only surfaces later when
the gap report runs that domain's `checkCoverage`. -/
theorem claim10_addCondition_validation :
    (∀ (ρ : Type) (tt : TruthTable ρ) (values : List (String × Condition)) (result : ρ),
        (∃ tt2, tt.addCondition values result = .ok tt2)
          ↔ sameKeySet values (tt.columns.map (fun c => c.name)) = true)
    ∧ (∃ tt1, ttEnumGT.addCondition [("a", .GreaterThanCondition (.int 5))] 0 = .ok tt1
        ∧ tt1.findGaps = .error (.unsupportedCondition "EnumDomain" "GreaterThanCondition")) := by
  constructor
  · intro ρ tt values result
    unfold TruthTable.addCondition
    by_cases h : sameKeySet values (tt.columns.map fun c => c.name) = true
    · simp [h]
    · simp [h]
  · exact ⟨⟨[⟨"a", BoolDomain⟩], [⟨[("a", .GreaterThanCondition (.int 5))], 0⟩]⟩, rfl, rfl⟩

/-- When every key of a row's condition dict has an input value, the inner
loop of `evaluate` returns (without raising) whether all conditions match. -/
theorem rowConditionsMatch_ok (values : List (String × Value)) (conds : List (String × Condition))
    (h : ∀ kc ∈ conds, (lookupVal values kc.1).isSome = true) :
    rowConditionsMatch values conds
      = .ok (conds.all (fun kc =>
          match lookupVal values kc.1 with
          | some v => kc.2.matchesVal v
          | none => false)) := by
  induction conds with
  | nil => rfl
  | cons kc rest ih =>
    have hkc := h kc (List.mem_cons_self kc rest)
    rcases hv : lookupVal values kc.1 with _ | v
    · rw [hv] at hkc
      cases hkc
    · rw [rowConditionsMatch, hv]
      have ihr := ih (fun kc2 hkc2 => h kc2 (List.mem_cons_of_mem kc hkc2))
      by_cases hm : kc.2.matchesVal v = true
      · simp [hm, ihr, List.all_cons, hv]
      · simp only [Bool.not_eq_true] at hm
        simp [hm, List.all_cons, hv]

/-- When every key used by the rows has an input value, the row scan never
raises and returns the first matching row's result. -/
theorem evaluateRows_find (ρ : Type) (values : List (String × Value)) (rows : List (Row ρ))
    (h : ∀ row ∈ rows, ∀ kc ∈ row.conditions, (lookupVal values kc.1).isSome = true) :
    evaluateRows values rows
      = .ok ((rows.find? (rowMatchesB values)).map (fun r => r.result)) := by
  induction rows with
  | nil => rfl
  | cons row rest ih =>
    have hrow := h row (List.mem_cons_self row rest)
    have ihr := ih (fun r hr => h r (List.mem_cons_of_mem row hr))
    rw [evaluateRows, rowConditionsMatch_ok values row.conditions hrow]
    by_cases hm : rowMatchesB values row = true
    · rw [List.find?_cons_of_pos _ hm]
      unfold rowMatchesB at hm
      simp only [hm]
      rfl
    · have hm2 : rowMatchesB values row = false := by
        cases h2 : rowMatchesB values row
        · rfl
        · exact absurd h2 hm
      rw [List.find?_cons_of_neg _ (by simp [hm2])]
      unfold rowMatchesB at hm2
      simp only [hm2]
      simpa using ihr

/-- Claim C8 (confirmed): on a table whose rows only reference declared
variables and an assignment covering all declared variables, `evaluate`
returns (never raises) the result of the first inserted row all of whose
conditions match, and `none` when no row matches. -/
theorem claim8_evaluate (ρ : Type) (tt : TruthTable ρ) (values : List (String × Value))
    (hrows : ∀ row ∈ tt.table, ∀ kc ∈ row.conditions,
        kc.1 ∈ tt.columns.map (fun c => c.name))
    (hvals : ∀ n ∈ tt.columns.map (fun c => c.name), (lookupVal values n).isSome = true) :
    tt.evaluate values
      = .ok ((tt.table.find? (rowMatchesB values)).map (fun r => r.result)) :=
  evaluateRows_find ρ values tt.table
    (fun row hrow kc hkc => hvals kc.1 (hrows row hrow kc hkc))

/-- Witness for claim C8: on the overlapping two-row table, the first
inserted row's result is returned even though the second row also matches. -/
theorem claim8_evaluate_witness :
    ttFirstWins.evaluate [("a", .int 5)] = .ok (some "first") :=
  claim8_evaluate String ttFirstWins [("a", .int 5)]
    (by decide) (by decide)

/-- Unfolding: no synthesized gap contributes nothing. -/
theorem optToList_none : optToList none = ([] : List Condition) := rfl

/-- Unfolding: a synthesized gap contributes a singleton segment. -/
theorem optToList_some (g : Condition) : optToList (some g) = [g] := rfl

/-- The synthesized low-end complement is always bounded above. -/
theorem intPreGap_highest (c0 p : Condition) (h : intPreGap c0 = some p) :
    ∃ hv, p.highest = some hv := by
  cases c0 <;> simp_all [intPreGap, Condition.lowest] <;>
    (cases h; simp [Condition.highest])

/-- No low-end complement is synthesized only for conditions unbounded
below. -/
theorem intPreGap_none (c0 : Condition) (h : intPreGap c0 = none) : c0.lowest = none := by
  cases c0 <;> simp_all [intPreGap, Condition.lowest]

/-- A non-inequality condition unbounded below is bounded above. -/
theorem lowest_none_highest (c : Condition) (hne : c.isInequality = false)
    (h : c.lowest = none) : ∃ hv, c.highest = some hv := by
  cases c <;> simp_all [Condition.lowest, Condition.highest, Condition.isInequality]

/-- Shape of the synthesized high-end complement when the last sorted
condition is bounded above. -/
theorem intPostGap_spec (c : Condition) (hv : Value) (h : c.highest = some hv) :
    intPostGap c = some (highGapFor c hv) := by
  cases c with
  | EqualityCondition v => cases h; rfl
  | InequalityCondition v => cases h
  | LessThanCondition v => cases h; rfl
  | LessThanOrEqualToCondition v => cases h; rfl
  | GreaterThanCondition v => cases h
  | GreaterThanOrEqualToCondition v => cases h
  | RangeCondition mn mx => cases h; rfl

/-- The sweep either returns, fails the interior range assertion, or hits
the undefined-lowest subtraction; no other outcome exists. -/
theorem intSweep_trichotomy (cov : Option Value) (l : List Condition) :
    (∃ gaps, intSweep cov l = .ok gaps)
    ∨ intSweep cov l = .error (.assertionError "range-min-max")
    ∨ intSweep cov l = .error .typeError := by
  induction l generalizing cov with
  | nil => exact Or.inl ⟨[], rfl⟩
  | cons c rest ih =>
    rcases cov with _ | hc
    · exact Or.inl ⟨[], rfl⟩
    · rcases hlo : c.lowest with _ | lo
      · refine Or.inr (Or.inr ?_)
        simp only [intSweep, hlo]
      · simp only [intSweep, hlo]
        by_cases h1 : veq (vdec lo) hc = true
        · rw [if_pos h1]
          exact ih c.highest
        · rw [if_neg h1]
          by_cases h2 : veq (vinc hc) (vdec lo) = true
          · rw [if_pos h2]
            rcases ih c.highest with ⟨gaps, hg⟩ | hg | hg <;> rw [hg]
            · exact Or.inl ⟨_, rfl⟩
            · exact Or.inr (Or.inl rfl)
            · exact Or.inr (Or.inr rfl)
          · rw [if_neg h2]
            by_cases h3 : vle (vinc hc) (vdec lo) = true
            · rw [if_pos h3]
              rcases ih c.highest with ⟨gaps, hg⟩ | hg | hg <;> rw [hg]
              · exact Or.inl ⟨_, rfl⟩
              · exact Or.inr (Or.inl rfl)
              · exact Or.inr (Or.inr rfl)
            · rw [if_neg h3]
              exact Or.inr (Or.inl rfl)

/-- A successful `checkCoverage` run returns the low complement, the
interior sweep gaps, then the high complement. -/
theorem intAfterSort_ok_decomp (c0 : Condition) (rest gaps : List Condition)
    (hok : intAfterSort c0 rest = .ok gaps) :
    ∃ gaps0,
      gaps = optToList (intPreGap c0) ++ gaps0
        ++ optToList (intPostGap (rest.getLastD c0)) := by
  unfold intAfterSort at hok
  rcases hpre : intPreGap c0 with _ | p <;>
    simp only [hpre, optToList_none, optToList_some, List.nil_append, List.cons_append,
      List.append_assoc] at hok
  · rcases hh : c0.highest with _ | hc <;> simp only [hh] at hok
    · cases hok
    · rcases hsw : intSweep (some hc) (rest ++ optToList (intPostGap (rest.getLastD c0)))
        with e | gaps0 <;> rw [hsw] at hok
      · cases hok
      · cases hok
        exact ⟨gaps0, by simp [hpre, optToList]⟩
  · rcases hh : p.highest with _ | hc <;> simp only [hh] at hok
    · cases hok
    · rcases hsw : intSweep (some hc)
          (c0 :: (rest ++ optToList (intPostGap (rest.getLastD c0))))
        with e | gaps0 <;> rw [hsw] at hok
      · cases hok
      · cases hok
        exact ⟨gaps0, by simp [hpre, optToList]⟩

/-- The last element of a non-empty cons list is the tail's last element,
defaulting to the head. -/
theorem getLast?_cons_getLastD (c0 : Condition) (rest : List Condition) :
    (c0 :: rest).getLast? = some (rest.getLastD c0) := by
  induction rest generalizing c0 with
  | nil => rfl
  | cons c1 rest2 ih => rw [List.getLast?_cons_cons, ih c1, List.getLastD_cons]

/-- Claim C4 counterexample: for input `[LessThan(5)]` the last sorted
condition is `LessThan(5)` with defined highest `4`, yet the appended
high-end gap is `GreaterThanOrEqual(5)`, not `GreaterThanOrEqual(5+1)` as
the claim states. -/
theorem claim4_counterexample :
    intDomainCheckCoverage [.LessThanCondition (.int 5)]
        = .ok [.GreaterThanOrEqualToCondition (.int 5)]
    ∧ (sortConditions [.LessThanCondition (.int 5)]).getLast?
        = some (.LessThanCondition (.int 5))
    ∧ (Condition.LessThanCondition (.int 5)).highest = some (.int 4)
    ∧ Condition.GreaterThanOrEqualToCondition (.int 5)
        ≠ Condition.GreaterThanOrEqualToCondition (.int 6) :=
  ⟨rfl, rfl, rfl, by decide⟩

/-- Claim C4 (corrected): when the last sorted condition is bounded above,
the appended high-end gap is `GreaterThanOrEqual(highest()+1)` — for
`LessThan(v)` this is `GreaterThanOrEqual(v)`, not `GreaterThanOrEqual(v+1)`
— and otherwise `GreaterThan(highest())`. -/
theorem claim4_high_end_gap (args gaps : List Condition) (c : Condition) (hv : Value)
    (hlast : (sortConditions args).getLast? = some c)
    (hhi : c.highest = some hv)
    (hok : intDomainCheckCoverage args = .ok gaps) :
    gaps.getLast? = some (highGapFor c hv) := by
  unfold intDomainCheckCoverage at hok
  rcases heq : sortConditions args with _ | ⟨c0, rest⟩ <;> rw [heq] at hok
  · cases hok
  · rw [heq, getLast?_cons_getLastD] at hlast
    have hc : rest.getLastD c0 = c := by
      cases hlast
      rfl
    obtain ⟨gaps0, hdecomp⟩ := intAfterSort_ok_decomp c0 rest gaps hok
    rw [hc, intPostGap_spec c hv hhi] at hdecomp
    rw [hdecomp]
    rw [show optToList (intPreGap c0) ++ gaps0 ++ optToList (some (highGapFor c hv))
      = (optToList (intPreGap c0) ++ gaps0) ++ [highGapFor c hv] by simp [optToList]]
    exact List.getLast?_concat _

/-- Witness for claim C4: the corrected statement applied to `[LessThan(5)]`
produces the high-end gap `GreaterThanOrEqual(5)`. -/
theorem claim4_high_end_gap_witness :
    ([Condition.GreaterThanOrEqualToCondition (.int 5)] : List Condition).getLast?
      = some (highGapFor (.LessThanCondition (.int 5)) (.int 4)) :=
  claim4_high_end_gap [.LessThanCondition (.int 5)]
    [.GreaterThanOrEqualToCondition (.int 5)]
    (.LessThanCondition (.int 5)) (.int 4) rfl rfl rfl

/-- Claim C2 counterexample: the overlapping input
`[Range(0,10), Range(2,3)]` — whose sweep would move `coveredUpTo`
backward — does not return normally: the interior gap construction fails
the `RangeCondition` assertion `min <= max`. -/
theorem claim2_counterexample :
    intDomainCheckCoverage [.RangeCondition (.int 0) (.int 10), .RangeCondition (.int 2) (.int 3)]
      = .error (.assertionError "range-min-max") := rfl

/-- Claim C2 (corrected): for every non-empty input, `checkCoverage`
either returns normally or raises one of exactly two errors — the interior
`RangeCondition(min, max)` assertion failure (`min > max`) or the
`None - 1` type error for a mid-sweep condition with undefined `lowest()`;
the `highest_covered` assertion never fires, and inputs that would move the
covered bound backward raise rather than complete. -/
theorem claim2_completion (args : List Condition) (h : args ≠ []) :
    (∃ gaps, intDomainCheckCoverage args = .ok gaps)
    ∨ intDomainCheckCoverage args = .error (.assertionError "range-min-max")
    ∨ intDomainCheckCoverage args = .error .typeError := by
  rcases heq : sortConditions args with _ | ⟨c0, rest⟩
  · exact absurd heq (sortConditions_ne_nil args h)
  · unfold intDomainCheckCoverage
    rw [heq]
    unfold intAfterSort
    rcases hpre : intPreGap c0 with _ | p <;>
      simp only [hpre, optToList_none, optToList_some, List.nil_append, List.cons_append,
      List.append_assoc]
    · have hc0ne : c0.isInequality = false :=
        sortConditions_no_inequality args c0 (heq ▸ List.mem_cons_self c0 rest)
      obtain ⟨hv, hh⟩ := lowest_none_highest c0 hc0ne (intPreGap_none c0 hpre)
      simp only [hh]
      rcases intSweep_trichotomy (some hv)
          (rest ++ optToList (intPostGap (rest.getLastD c0))) with ⟨gaps, hg⟩ | hg | hg <;>
        rw [hg]
      · exact Or.inl ⟨_, rfl⟩
      · exact Or.inr (Or.inl rfl)
      · exact Or.inr (Or.inr rfl)
    · obtain ⟨hv, hh⟩ := intPreGap_highest c0 p hpre
      simp only [hh]
      rcases intSweep_trichotomy (some hv)
          (c0 :: (rest ++ optToList (intPostGap (rest.getLastD c0)))) with ⟨gaps, hg⟩ | hg | hg <;>
        rw [hg]
      · exact Or.inl ⟨_, rfl⟩
      · exact Or.inr (Or.inl rfl)
      · exact Or.inr (Or.inr rfl)

/-- Witness for claim C2: the corrected statement applied to the singleton
input `[Equality(0)]`. -/
theorem claim2_completion_witness :
    (∃ gaps, intDomainCheckCoverage [.EqualityCondition (.int 0)] = .ok gaps)
    ∨ intDomainCheckCoverage [.EqualityCondition (.int 0)]
        = .error (.assertionError "range-min-max")
    ∨ intDomainCheckCoverage [.EqualityCondition (.int 0)] = .error .typeError :=
  claim2_completion [.EqualityCondition (.int 0)] (by decide)

/-- Reduction of a successful bind in the `Except` monad. -/
theorem except_bind_ok {α β : Type} (a : α) (f : α → Except PyErr β) :
    (Except.ok a >>= f) = f a := rfl

/-- Reduction of a failed bind in the `Except` monad. -/
theorem except_bind_error {α β : Type} (e : PyErr) (f : α → Except PyErr β) :
    ((Except.error e : Except PyErr α) >>= f) = Except.error e := rfl

/-- When one column loop iteration of `findGaps` returns, its entry pairs
the column name with exactly that column's own `checkCoverage` gaps. -/
theorem findGapsColumn_ok (ρ : Type) (tt : TruthTable ρ) (i : Nat) (col : Variable)
    (entry : String × List Condition)
    (hok : findGapsColumn tt i col = .ok entry) :
    entry.1 = col.name
    ∧ ∃ vals, columnConds tt.table col.name = .ok vals
        ∧ col.domain.checkCoverage vals = .ok entry.2 := by
  unfold findGapsColumn at hok
  rcases hcv : columnConds tt.table col.name with e | vals
  · rw [hcv] at hok
    cases hok
  · rw [hcv] at hok
    simp only [except_bind_ok] at hok
    rcases hcc : col.domain.checkCoverage vals with e | gaps
    · rw [hcc] at hok
      cases hok
    · rw [hcc] at hok
      simp only [except_bind_ok] at hok
      rcases hdb : debugConditions tt i col (vals ++ gaps) with e | u
      · rw [hdb] at hok
        cases hok
      · rw [hdb] at hok
        simp only [except_bind_ok] at hok
        cases hok
        exact ⟨rfl, vals, rfl, hcc⟩

/-- When the column loop of `findGaps` returns, its entries are in column
order, one per column, each the column's independent gap report. -/
theorem findGapsColumns_ok (ρ : Type) (tt : TruthTable ρ) :
    ∀ (cols : List Variable) (i : Nat) (res : List (String × List Condition)),
      findGapsColumns tt i cols = .ok res →
      res.length = cols.length
      ∧ ∀ k (hk : k < cols.length) (hr : k < res.length),
          (res.get ⟨k, hr⟩).1 = (cols.get ⟨k, hk⟩).name
          ∧ ∃ vals, columnConds tt.table (cols.get ⟨k, hk⟩).name = .ok vals
              ∧ (cols.get ⟨k, hk⟩).domain.checkCoverage vals = .ok (res.get ⟨k, hr⟩).2 := by
  intro cols
  induction cols with
  | nil =>
    intro i res hok
    cases hok
    exact ⟨rfl, fun k hk => absurd hk (by simp)⟩
  | cons col rest ih =>
    intro i res hok
    unfold findGapsColumns at hok
    rcases hfc : findGapsColumn tt i col with e | entry
    · rw [hfc] at hok
      cases hok
    · rw [hfc] at hok
      simp only [except_bind_ok] at hok
      rcases hfr : findGapsColumns tt (i + 1) rest with e | entries
      · rw [hfr] at hok
        cases hok
      · rw [hfr] at hok
        simp only [except_bind_ok] at hok
        cases hok
        obtain ⟨h1, vals, hv, hc⟩ := findGapsColumn_ok ρ tt i col entry hfc
        obtain ⟨hlen, hidx⟩ := ih (i + 1) entries hfr
        refine ⟨by simp [hlen], ?_⟩
        intro k hk hr
        cases k with
        | zero => exact ⟨h1, vals, hv, hc⟩
        | succ k2 => exact hidx k2 (by simpa using hk) (by simpa using hr)

/-- Claim C3 (corrected): whenever `findGaps` returns, it returns exactly
one entry per declared variable, in declaration order, pairing the
variable's name with that variable's own domain `checkCoverage` result on
the conditions used for it across all rows — the in-progress combination
code never contributes to the returned value.  It can, however, prevent a
result by raising (see the counterexample). -/
theorem claim3_per_variable_report (ρ : Type) (tt : TruthTable ρ)
    (res : List (String × List Condition)) (hok : tt.findGaps = .ok res) :
    res.length = tt.columns.length
    ∧ ∀ k (hk : k < tt.columns.length) (hr : k < res.length),
        (res.get ⟨k, hr⟩).1 = (tt.columns.get ⟨k, hk⟩).name
        ∧ ∃ vals, columnConds tt.table (tt.columns.get ⟨k, hk⟩).name = .ok vals
            ∧ (tt.columns.get ⟨k, hk⟩).domain.checkCoverage vals = .ok (res.get ⟨k, hr⟩).2 :=
  findGapsColumns_ok ρ tt tt.columns 0 res hok

/-- Witness for claim C3: the single-column overlapping table's report is
its one column's own gap list. -/
theorem claim3_per_variable_report_witness :
    ttFirstWinsGaps.length = ttFirstWins.columns.length
    ∧ ∀ k (hk : k < ttFirstWins.columns.length) (hr : k < ttFirstWinsGaps.length),
        (ttFirstWinsGaps.get ⟨k, hr⟩).1 = (ttFirstWins.columns.get ⟨k, hk⟩).name
        ∧ ∃ vals, columnConds ttFirstWins.table (ttFirstWins.columns.get ⟨k, hk⟩).name = .ok vals
            ∧ (ttFirstWins.columns.get ⟨k, hk⟩).domain.checkCoverage vals
                = .ok (ttFirstWinsGaps.get ⟨k, hr⟩).2 :=
  claim3_per_variable_report String ttFirstWins ttFirstWinsGaps rfl

/-- Claim C3 counterexample: on a two-column table whose per-column gap
computations each succeed, `findGaps` nevertheless raises — the
in-progress combination code probes the integer domain with an empty
condition collection, which indexes an empty list — so that code can
prevent the returned result. -/
theorem claim3_counterexample :
    ttCross.findGaps = .error .indexError
    ∧ BoolDomain.checkCoverage [.EqualityCondition (.bool true)]
        = .ok [.EqualityCondition (.bool false)]
    ∧ Domain.IntDomain.checkCoverage [.LessThanCondition (.int 6)]
        = .ok [.GreaterThanOrEqualToCondition (.int 6)] :=
  ⟨rfl, rfl, rfl⟩

/-- Successor arithmetic on values, numerically. -/
theorem vinc_asInt (a : Value) : (vinc a).asInt = a.asInt + 1 := rfl

/-- Predecessor arithmetic on values, numerically. -/
theorem vdec_asInt (a : Value) : (vdec a).asInt = a.asInt - 1 := rfl

/-- Numeric order on values, propositionally. -/
theorem vle_iff (a b : Value) : vle a b = true ↔ a.asInt ≤ b.asInt := by
  simp [vle]

/-- Strict numeric order on values, propositionally. -/
theorem vlt_iff (a b : Value) : vlt a b = true ↔ a.asInt < b.asInt := by
  simp [vlt]

/-- A condition bounded below is not an inequality. -/
theorem lowest_some_not_ineq (c : Condition) (lo : Value) (h : c.lowest = some lo) :
    c.isInequality = false := by
  cases c <;> simp_all [Condition.lowest, Condition.isInequality]

/-- For a valid condition bounded on both sides, the bounds describe a
non-empty-or-adjacent region: `lowest - 1 <= highest`. -/
theorem lowest_highest_valid (c : Condition) (lo hv : Value)
    (hval : condValidB c = true) (hlo : c.lowest = some lo) (hh : c.highest = some hv) :
    lo.asInt - 1 ≤ hv.asInt := by
  cases c <;>
    simp_all [condValidB, Condition.lowest, Condition.highest] <;>
    omega

/-- Destructor for the separation chain over two leading elements. -/
theorem sepChainB_cons_cons (a b : Condition) (r : List Condition)
    (h : sepChainB (a :: b :: r) = true) :
    (∃ ha lb, a.highest = some ha ∧ b.lowest = some lb ∧ ha.asInt < lb.asInt)
      ∧ sepChainB (b :: r) = true := by
  rw [sepChainB, Bool.and_eq_true] at h
  refine ⟨?_, h.2⟩
  rcases hha : a.highest with _ | ha <;> rcases hlb : b.lowest with _ | lb <;>
    rw [hha, hlb] at h
  · cases h.1
  · cases h.1
  · cases h.1
  · exact ⟨ha, lb, rfl, rfl, by simpa using h.1⟩

/-- Everything matched by a condition of a sweep-invariant list lies
strictly above the entry bound. -/
theorem sweepOK_lower (e : Int) (l : List Condition) (h : sweepOK e l) :
    ∀ c ∈ l, ∀ x : Int, c.matchesVal (.int x) = true → e < x := by
  induction l generalizing e with
  | nil => simp
  | cons c rest ih =>
    obtain ⟨lo, hlo, helo, hcase⟩ := h
    intro c2 hc2 x hm
    rcases List.mem_cons.mp hc2 with hc2 | hc2
    · subst hc2
      have hb := (matchesVal_iff_bounds c2 (lowest_some_not_ineq c2 lo hlo) x).mp hm
      rw [hlo] at hb
      have : lo.asInt ≤ x := hb.1
      omega
    · rcases hcase with ⟨hv, _, hvalid, hok⟩ | ⟨_, hrest⟩
      · have := ih hv.asInt hok c2 hc2 x hm
        omega
      · subst hrest
        cases hc2

/-- Anything at or below the entry bound is below the sweep's upper limit. -/
theorem sweepUB_of_le (e : Int) (l : List Condition) (x : Int)
    (h : sweepOK e l) (hx : x ≤ e) : sweepUB e l x := by
  induction l generalizing e with
  | nil => exact hx
  | cons c rest ih =>
    obtain ⟨lo, hlo, helo, hcase⟩ := h
    rcases hcase with ⟨hv, hh, hvalid, hok⟩ | ⟨hh, hrest⟩
    · simp only [sweepUB, hh]
      exact ih hv.asInt hok (by omega)
    · simp only [sweepUB, hh]

/-- When the list ends in an unbounded-above condition, the sweep imposes
no upper limit. -/
theorem sweepUB_true_of_last_none (l : List Condition) (e x : Int)
    (h : ∃ cl, l.getLast? = some cl ∧ cl.highest = none) : sweepUB e l x := by
  induction l generalizing e with
  | nil =>
    obtain ⟨cl, hcl, _⟩ := h
    cases hcl
  | cons c rest ih =>
    cases rest with
    | nil =>
      obtain ⟨cl, hcl, hnone⟩ := h
      have hcc : c = cl := by simpa using hcl
      cases hcc
      simp only [sweepUB, hnone]
    | cons c2 rest2 =>
      obtain ⟨cl, hcl, hnone⟩ := h
      rw [List.getLast?_cons_cons] at hcl
      rcases hh : c.highest with _ | hv <;> simp only [sweepUB, hh]
      exact ih hv.asInt ⟨cl, hcl, hnone⟩

/-- Core sweep correctness: under the sweep invariant the sweep returns,
and its gaps match exactly the integers strictly above the entry bound,
below the sweep's upper limit, and matched by no swept condition. -/
theorem intSweep_correct (hc : Value) (l : List Condition) (h : sweepOK hc.asInt l) :
    ∃ gaps, intSweep (some hc) l = .ok gaps
      ∧ ∀ x : Int, lAny gaps x ↔
          (hc.asInt < x ∧ ¬ lAny l x ∧ sweepUB hc.asInt l x) := by
  induction l generalizing hc with
  | nil =>
    refine ⟨[], rfl, fun x => ?_⟩
    simp only [sweepUB]
    constructor
    · intro hx
      exact absurd hx (lAny_nil x)
    · rintro ⟨hx1, -, hx3⟩
      omega
  | cons c rest ih =>
    obtain ⟨lo, hlo, helo, hcase⟩ := h
    have hb := fun x : Int => matchesVal_iff_bounds c (lowest_some_not_ineq c lo hlo) x
    by_cases h1 : veq (vdec lo) hc = true
    · have h1i : lo.asInt - 1 = hc.asInt := by
        have := (veq_iff _ _).mp h1
        simpa [vdec_asInt] using this
      rcases hcase with ⟨hv, hh, hvalid, hok⟩ | ⟨hh, hrest⟩
      · obtain ⟨gaps, hg, hiff⟩ := ih hv hok
        refine ⟨gaps, ?_, ?_⟩
        · simp only [intSweep, hlo]
          rw [if_pos h1, hh]
          exact hg
        · intro x
          have hbx := hb x
          rw [hlo, hh] at hbx
          simp only [optLB, optUB] at hbx
          rw [hiff x, lAny_cons]
          simp only [sweepUB, hh]
          constructor
          · rintro ⟨hxv, hrm, hub⟩
            refine ⟨by omega, ?_, hub⟩
            rintro (hcm | hrm2)
            · have := hbx.mp hcm
              omega
            · exact hrm hrm2
          · rintro ⟨hx, hno, hub⟩
            refine ⟨?_, fun hrm => hno (Or.inr hrm), hub⟩
            by_contra hle
            push_neg at hle
            exact hno (Or.inl (hbx.mpr ⟨by omega, by omega⟩))
      · subst hrest
        refine ⟨[], ?_, ?_⟩
        · simp only [intSweep, hlo]
          rw [if_pos h1]
        · intro x
          have hbx := hb x
          rw [hlo, hh] at hbx
          simp only [optLB, optUB, and_true] at hbx
          simp only [sweepUB, hh]
          rw [lAny_cons]
          constructor
          · intro hx
            exact absurd hx (lAny_nil x)
          · rintro ⟨hx, hno, -⟩
            exact absurd (Or.inl (hbx.mpr (by omega))) hno
    · have h1i : lo.asInt - 1 ≠ hc.asInt := by
        intro hcontra
        exact h1 ((veq_iff _ _).mpr (by simpa [vdec_asInt] using hcontra))
      have hgt : hc.asInt + 1 ≤ lo.asInt - 1 := by omega
      by_cases h2 : veq (vinc hc) (vdec lo) = true
      · have h2i : hc.asInt + 1 = lo.asInt - 1 := by
          have := (veq_iff _ _).mp h2
          simpa [vinc_asInt, vdec_asInt] using this
        have hgm : ∀ x : Int,
            (Condition.EqualityCondition (vinc hc)).matchesVal (.int x) = true
              ↔ x = hc.asInt + 1 := by
          intro x
          rw [show (Condition.EqualityCondition (vinc hc)).matchesVal (.int x)
              = veq (.int x) (vinc hc) from rfl, veq_iff, vinc_asInt]
          simp [Value.asInt]
        rcases hcase with ⟨hv, hh, hvalid, hok⟩ | ⟨hh, hrest⟩
        · obtain ⟨gaps, hg, hiff⟩ := ih hv hok
          refine ⟨.EqualityCondition (vinc hc) :: gaps, ?_, ?_⟩
          · simp only [intSweep, hlo]
            rw [if_neg h1, if_pos h2, hh, hg]
            rfl
          · intro x
            have hbx := hb x
            rw [hlo, hh] at hbx
            simp only [optLB, optUB] at hbx
            rw [lAny_cons, lAny_cons, hiff x, hgm x]
            simp only [sweepUB, hh]
            constructor
            · rintro (hgx | ⟨hxv, hrm, hub⟩)
              · refine ⟨by omega, ?_, ?_⟩
                · rintro (hcm | hrm2)
                  · have := hbx.mp hcm
                    omega
                  · obtain ⟨c2, hc2, hm2⟩ := hrm2
                    have hlow := sweepOK_lower hv.asInt rest hok c2 hc2 x hm2
                    omega
                · exact sweepUB_of_le hv.asInt rest x hok (by omega)
              · refine ⟨by omega, ?_, hub⟩
                rintro (hcm | hrm2)
                · have := hbx.mp hcm
                  omega
                · exact hrm hrm2
            · rintro ⟨hx, hno, hub⟩
              by_cases hxlo : x ≤ lo.asInt - 1
              · exact Or.inl (by omega)
              · refine Or.inr ⟨?_, fun hrm => hno (Or.inr hrm), hub⟩
                by_contra hle
                push_neg at hle
                exact hno (Or.inl (hbx.mpr ⟨by omega, by omega⟩))
        · subst hrest
          refine ⟨[.EqualityCondition (vinc hc)], ?_, ?_⟩
          · simp only [intSweep, hlo]
            rw [if_neg h1, if_pos h2]
            rfl
          · intro x
            have hbx := hb x
            rw [hlo, hh] at hbx
            simp only [optLB, optUB, and_true] at hbx
            rw [lAny_cons, lAny_cons, hgm x]
            simp only [sweepUB, hh]
            constructor
            · rintro (hgx | hgx2)
              · refine ⟨by omega, ?_, trivial⟩
                rintro (hcm | hrm2)
                · have := hbx.mp hcm
                  omega
                · exact absurd hrm2 (lAny_nil x)
              · exact absurd hgx2 (lAny_nil x)
            · rintro ⟨hx, hno, -⟩
              by_cases hxlo : x ≤ lo.asInt - 1
              · exact Or.inl (by omega)
              · exact absurd (Or.inl (hbx.mpr (by omega))) hno
      · have h3 : vle (vinc hc) (vdec lo) = true := by
          rw [vle_iff, vinc_asInt, vdec_asInt]
          have h2i : hc.asInt + 1 ≠ lo.asInt - 1 := by
            intro hcontra
            exact h2 ((veq_iff _ _).mpr (by simpa [vinc_asInt, vdec_asInt] using hcontra))
          omega
        have hgm : ∀ x : Int,
            (Condition.RangeCondition (vinc hc) (vdec lo)).matchesVal (.int x) = true
              ↔ hc.asInt + 1 ≤ x ∧ x ≤ lo.asInt - 1 := by
          intro x
          rw [show (Condition.RangeCondition (vinc hc) (vdec lo)).matchesVal (.int x)
              = (vle (vinc hc) (.int x) && vle (.int x) (vdec lo)) from rfl]
          rw [Bool.and_eq_true, vle_iff, vle_iff, vinc_asInt, vdec_asInt]
          simp [Value.asInt]
        rcases hcase with ⟨hv, hh, hvalid, hok⟩ | ⟨hh, hrest⟩
        · obtain ⟨gaps, hg, hiff⟩ := ih hv hok
          refine ⟨.RangeCondition (vinc hc) (vdec lo) :: gaps, ?_, ?_⟩
          · simp only [intSweep, hlo]
            rw [if_neg h1, if_neg h2, if_pos h3, hh, hg]
            rfl
          · intro x
            have hbx := hb x
            rw [hlo, hh] at hbx
            simp only [optLB, optUB] at hbx
            rw [lAny_cons, lAny_cons, hiff x, hgm x]
            simp only [sweepUB, hh]
            constructor
            · rintro (hgx | ⟨hxv, hrm, hub⟩)
              · refine ⟨by omega, ?_, ?_⟩
                · rintro (hcm | hrm2)
                  · have := hbx.mp hcm
                    omega
                  · obtain ⟨c2, hc2, hm2⟩ := hrm2
                    have hlow := sweepOK_lower hv.asInt rest hok c2 hc2 x hm2
                    omega
                · exact sweepUB_of_le hv.asInt rest x hok (by omega)
              · refine ⟨by omega, ?_, hub⟩
                rintro (hcm | hrm2)
                · have := hbx.mp hcm
                  omega
                · exact hrm hrm2
            · rintro ⟨hx, hno, hub⟩
              by_cases hxlo : x ≤ lo.asInt - 1
              · exact Or.inl (by omega)
              · refine Or.inr ⟨?_, fun hrm => hno (Or.inr hrm), hub⟩
                by_contra hle
                push_neg at hle
                exact hno (Or.inl (hbx.mpr ⟨by omega, by omega⟩))
        · subst hrest
          refine ⟨[.RangeCondition (vinc hc) (vdec lo)], ?_, ?_⟩
          · simp only [intSweep, hlo]
            rw [if_neg h1, if_neg h2, if_pos h3]
            rfl
          · intro x
            have hbx := hb x
            rw [hlo, hh] at hbx
            simp only [optLB, optUB, and_true] at hbx
            rw [lAny_cons, lAny_cons, hgm x]
            simp only [sweepUB, hh]
            constructor
            · rintro (hgx | hgx2)
              · refine ⟨by omega, ?_, trivial⟩
                rintro (hcm | hrm2)
                · have := hbx.mp hcm
                  omega
                · exact absurd hrm2 (lAny_nil x)
              · exact absurd hgx2 (lAny_nil x)
            · rintro ⟨hx, hno, -⟩
              by_cases hxlo : x ≤ lo.asInt - 1
              · exact Or.inl (by omega)
              · exact absurd (Or.inl (hbx.mpr (by omega))) hno

/-- Semantics of the synthesized high-end complement: bounded below at
`highest + 1`, unbounded above, matching exactly the integers strictly
above `highest`. -/
theorem highGapFor_sem (c : Condition) (hv : Value) :
    (highGapFor c hv).lowest = some (vinc hv)
    ∧ (highGapFor c hv).highest = none
    ∧ ∀ x : Int, ((highGapFor c hv).matchesVal (.int x) = true ↔ hv.asInt < x) := by
  cases c <;>
    refine ⟨rfl, rfl, fun x => ?_⟩ <;>
    simp [highGapFor, Condition.matchesVal, vle, vlt, vinc, Value.asInt] <;>
    omega

/-- A condition with no `highest()` produces no high-end complement. -/
theorem intPostGap_none_of (c : Condition) (h : c.highest = none) : intPostGap c = none := by
  rw [intPostGap, h]

/-- Semantics of the synthesized low-end complement: it covers exactly the
integers strictly below the first condition's lowest bound. -/
theorem intPreGap_sem (c0 p : Condition) (hpre : intPreGap c0 = some p) :
    ∃ lo, c0.lowest = some lo
      ∧ (∃ ph, p.highest = some ph ∧ ph.asInt = lo.asInt - 1)
      ∧ ∀ x : Int, (p.matchesVal (.int x) = true ↔ x ≤ lo.asInt - 1) := by
  cases c0 with
  | EqualityCondition v =>
    cases hpre
    refine ⟨v, rfl, ⟨vdec v, rfl, vdec_asInt v⟩, fun x => ?_⟩
    rw [show (Condition.LessThanCondition v).matchesVal (.int x) = vlt (.int x) v from rfl,
      vlt_iff]
    simp only [Value.asInt]
    omega
  | InequalityCondition v => cases hpre
  | LessThanCondition v => cases hpre
  | LessThanOrEqualToCondition v => cases hpre
  | GreaterThanCondition v =>
    cases hpre
    refine ⟨vinc v, rfl, ⟨vdec (vinc v), rfl, vdec_asInt (vinc v)⟩, fun x => ?_⟩
    rw [show (Condition.LessThanOrEqualToCondition (vdec (vinc v))).matchesVal (.int x)
        = vle (.int x) (vdec (vinc v)) from rfl, vle_iff, vdec_asInt, vinc_asInt]
    simp only [Value.asInt]
  | GreaterThanOrEqualToCondition v =>
    cases hpre
    refine ⟨v, rfl, ⟨vdec v, rfl, vdec_asInt v⟩, fun x => ?_⟩
    rw [show (Condition.LessThanCondition v).matchesVal (.int x) = vlt (.int x) v from rfl,
      vlt_iff]
    simp only [Value.asInt]
    omega
  | RangeCondition mn mx =>
    cases hpre
    refine ⟨mn, rfl, ⟨vdec mn, rfl, vdec_asInt mn⟩, fun x => ?_⟩
    rw [show (Condition.LessThanCondition mn).matchesVal (.int x) = vlt (.int x) mn from rfl,
      vlt_iff]
    simp only [Value.asInt]
    omega

/-- A non-inequality condition unbounded below matches exactly the
integers up to its `highest()`. -/
theorem lowest_none_sem (c : Condition) (hne : c.isInequality = false)
    (hlo : c.lowest = none) :
    ∃ hv, c.highest = some hv
      ∧ ∀ x : Int, (c.matchesVal (.int x) = true ↔ x ≤ hv.asInt) := by
  cases c with
  | EqualityCondition v => cases hlo
  | InequalityCondition v => cases hne
  | LessThanCondition v =>
    refine ⟨vdec v, rfl, fun x => ?_⟩
    rw [show (Condition.LessThanCondition v).matchesVal (.int x) = vlt (.int x) v from rfl,
      vlt_iff, vdec_asInt]
    simp only [Value.asInt]
    omega
  | LessThanOrEqualToCondition v =>
    refine ⟨v, rfl, fun x => ?_⟩
    rw [show (Condition.LessThanOrEqualToCondition v).matchesVal (.int x)
        = vle (.int x) v from rfl, vle_iff]
    simp only [Value.asInt]
  | GreaterThanCondition v => cases hlo
  | GreaterThanOrEqualToCondition v => cases hlo
  | RangeCondition mn mx => cases hlo

/-- Under a separated chain ending in a bounded condition, every element is
bounded above. -/
theorem chain_all_high :
    ∀ (rest : List Condition) (c0 : Condition) (hle : Value),
      sepChainB (c0 :: rest) = true →
      (rest.getLastD c0).highest = some hle →
      ∀ c ∈ c0 :: rest, ∃ h2, c.highest = some h2 := by
  intro rest
  induction rest with
  | nil =>
    intro c0 hle _ hlast c hc
    have hc0 : c = c0 := by simpa using hc
    subst hc0
    exact ⟨hle, hlast⟩
  | cons c3 rest3 ih =>
    intro c0 hle hchain hlast c hc
    obtain ⟨⟨ha, lb, hha, hlb, hab⟩, hchain2⟩ := sepChainB_cons_cons c0 c3 rest3 hchain
    have hlast2 : (rest3.getLastD c3).highest = some hle := by
      rw [List.getLastD_cons] at hlast
      exact hlast
    rcases List.mem_cons.mp hc with h | h
    · exact ⟨ha, h ▸ hha⟩
    · exact ih c3 hle hchain2 hlast2 c h

/-- Under a separated, valid chain, every defined `highest()` is at most
the last condition's `highest()`. -/
theorem chain_high_mono :
    ∀ (rest : List Condition) (c0 : Condition) (hle : Value),
      sepChainB (c0 :: rest) = true →
      (∀ c ∈ c0 :: rest, condValidB c = true) →
      (rest.getLastD c0).highest = some hle →
      ∀ c ∈ c0 :: rest, ∀ h2, c.highest = some h2 → h2.asInt ≤ hle.asInt := by
  intro rest
  induction rest with
  | nil =>
    intro c0 hle _ _ hlast c hc h2 hh2
    have hc0 : c = c0 := by simpa using hc
    subst hc0
    have hlast2 : c.highest = some hle := hlast
    rw [hh2] at hlast2
    cases hlast2
    omega
  | cons c3 rest3 ih =>
    intro c0 hle hchain hvalid hlast c hc h2 hh2
    obtain ⟨⟨ha, lb, hha, hlb, hab⟩, hchain2⟩ := sepChainB_cons_cons c0 c3 rest3 hchain
    have hlast2 : (rest3.getLastD c3).highest = some hle := by
      rw [List.getLastD_cons] at hlast
      exact hlast
    have hvalid2 : ∀ c4 ∈ c3 :: rest3, condValidB c4 = true :=
      fun c4 h4 => hvalid c4 (List.mem_cons_of_mem c0 h4)
    rcases List.mem_cons.mp hc with h | h
    · subst h
      have hah : ha = h2 := by
        rw [hha] at hh2
        exact Option.some.inj hh2
      subst hah
      cases rest3 with
      | nil =>
        have hc3h : c3.highest = some hle := hlast2
        have hv3 := lowest_highest_valid c3 lb hle (hvalid2 c3 (by simp)) hlb hc3h
        omega
      | cons c4 rest4 =>
        obtain ⟨⟨ha3, lb4, hha3, hlb4, hab4⟩, _⟩ := sepChainB_cons_cons c3 c4 rest4 hchain2
        have hv3 := lowest_highest_valid c3 lb ha3 (hvalid2 c3 (by simp)) hlb hha3
        have hm3 := ih c3 hle hchain2 hvalid2 hlast2 c3 (by simp) ha3 hha3
        omega
    · exact ih c3 hle hchain2 hvalid2 hlast2 c h h2 hh2

/-- Under a separated, valid chain headed by a condition bounded below,
every matched integer is at least that lower bound. -/
theorem chain_lower :
    ∀ (rest : List Condition) (c0 : Condition) (lo0 : Value),
      sepChainB (c0 :: rest) = true →
      (∀ c ∈ c0 :: rest, condValidB c = true) →
      (∀ c ∈ c0 :: rest, c.isInequality = false) →
      c0.lowest = some lo0 →
      ∀ c ∈ c0 :: rest, ∀ x : Int, c.matchesVal (.int x) = true → lo0.asInt ≤ x := by
  intro rest
  induction rest with
  | nil =>
    intro c0 lo0 _ _ hne hlo0 c hc x hm
    have hc0 : c = c0 := by simpa using hc
    subst hc0
    have hb := (matchesVal_iff_bounds c (hne c (by simp)) x).mp hm
    rw [hlo0] at hb
    exact hb.1
  | cons c3 rest3 ih =>
    intro c0 lo0 hchain hvalid hne hlo0 c hc x hm
    obtain ⟨⟨ha, lb, hha, hlb, hab⟩, hchain2⟩ := sepChainB_cons_cons c0 c3 rest3 hchain
    rcases List.mem_cons.mp hc with h | h
    · subst h
      have hb := (matchesVal_iff_bounds c (hne c (by simp)) x).mp hm
      rw [hlo0] at hb
      exact hb.1
    · have hvc0 : lo0.asInt - 1 ≤ ha.asInt :=
        lowest_highest_valid c0 lo0 ha (hvalid c0 (by simp)) hlo0 hha
      have hrec := ih c3 lb hchain2
        (fun c4 h4 => hvalid c4 (List.mem_cons_of_mem c0 h4))
        (fun c4 h4 => hne c4 (List.mem_cons_of_mem c0 h4))
        hlb c h x hm
      omega

/-- Under a separated, valid chain ending in a condition bounded above,
every matched integer is at most that upper bound. -/
theorem chain_upper (rest : List Condition) (c0 : Condition) (hle : Value)
    (hchain : sepChainB (c0 :: rest) = true)
    (hvalid : ∀ c ∈ c0 :: rest, condValidB c = true)
    (hne : ∀ c ∈ c0 :: rest, c.isInequality = false)
    (hlast : (rest.getLastD c0).highest = some hle) :
    ∀ c ∈ c0 :: rest, ∀ x : Int, c.matchesVal (.int x) = true → x ≤ hle.asInt := by
  intro c hc x hm
  obtain ⟨h2, hh2⟩ := chain_all_high rest c0 hle hchain hlast c hc
  have hmono := chain_high_mono rest c0 hle hchain hvalid hlast c hc h2 hh2
  have hb := (matchesVal_iff_bounds c (hne c hc) x).mp hm
  rw [hh2] at hb
  have hx : x ≤ h2.asInt := hb.2
  omega

/-- Every element of the expansion either came from the input or is one of
the two strict pieces of an inequality. -/
theorem mem_expand_cases :
    ∀ (args : List Condition) (c : Condition), c ∈ expandInequalities args →
      c ∈ args ∨ (∃ v, c = .LessThanCondition v) ∨ (∃ v, c = .GreaterThanCondition v) := by
  intro args
  induction args with
  | nil =>
    intro c hc
    simp [expandInequalities] at hc
  | cons a rest ih =>
    intro c hc
    cases a
    case InequalityCondition v =>
      simp only [expandInequalities] at hc
      rcases List.mem_cons.mp hc with h1 | h1
      · exact Or.inr (Or.inl ⟨v, h1⟩)
      · rcases List.mem_cons.mp h1 with h2 | h2
        · exact Or.inr (Or.inr ⟨v, h2⟩)
        · rcases ih c h2 with h3 | h3 | h3
          · exact Or.inl (List.mem_cons_of_mem _ h3)
          · exact Or.inr (Or.inl h3)
          · exact Or.inr (Or.inr h3)
    all_goals (
      simp only [expandInequalities] at hc
      rcases List.mem_cons.mp hc with h1 | h1
      · exact Or.inl (h1 ▸ List.mem_cons_self _ _)
      · rcases ih c h1 with h3 | h3 | h3
        · exact Or.inl (List.mem_cons_of_mem _ h3)
        · exact Or.inr (Or.inl h3)
        · exact Or.inr (Or.inr h3))

/-- Range validity carries over from the input to the sorted output. -/
theorem condValid_sortConditions (args : List Condition) (h : rangesValidB args = true) :
    ∀ c ∈ sortConditions args, condValidB c = true := by
  intro c hc
  have hc2 := (sortConditions_perm args).mem_iff.mp hc
  rcases mem_expand_cases args c hc2 with h1 | h1 | h1
  · rw [rangesValidB, List.all_eq_true] at h
    exact h c h1
  · obtain ⟨v, rfl⟩ := h1
    rfl
  · obtain ⟨v, rfl⟩ := h1
    rfl

/-- The trailing segment made of the optional high-end complement hooks
onto the chain's final bound. -/
theorem postL_hook (clast : Condition) :
    (clast.highest = none → optToList (intPostGap clast) = [])
    ∧ ∀ hv, clast.highest = some hv →
        sweepOK hv.asInt (optToList (intPostGap clast)) := by
  constructor
  · intro hnone
    rw [intPostGap_none_of clast hnone]
    rfl
  · intro hv hh
    rw [intPostGap_spec clast hv hh, optToList_some]
    refine ⟨vinc hv, (highGapFor_sem clast hv).1, ?_, Or.inr ⟨(highGapFor_sem clast hv).2.1, rfl⟩⟩
    rw [vinc_asInt]
    omega

/-- Build the sweep invariant for a separated chain followed by a trailing
segment hooked to the chain's final bound. -/
theorem sweepOK_of_chain :
    ∀ (l : List Condition) (e : Int) (tl : List Condition),
      sepChainB l = true →
      (∀ c ∈ l, condValidB c = true) →
      (∀ c rest2, l = c :: rest2 → ∃ lo, c.lowest = some lo ∧ e < lo.asInt) →
      (l = [] → sweepOK e tl) →
      (∀ cl, l.getLast? = some cl →
        (cl.highest = none → tl = [])
        ∧ ∀ hv, cl.highest = some hv → sweepOK hv.asInt tl) →
      sweepOK e (l ++ tl) := by
  intro l
  induction l with
  | nil =>
    intro e tl _ _ _ hnil _
    simpa using hnil rfl
  | cons c rest ih =>
    intro e tl hchain hvalid hhead hnil hlast
    obtain ⟨lo, hlo, he⟩ := hhead c rest rfl
    cases rest with
    | nil =>
      rcases hh : c.highest with _ | hv
      · have htl : tl = [] := (hlast c (by simp)).1 hh
        subst htl
        exact ⟨lo, hlo, he, Or.inr ⟨hh, rfl⟩⟩
      · refine ⟨lo, hlo, he, Or.inl ⟨hv, hh, ?_, (hlast c (by simp)).2 hv hh⟩⟩
        exact lowest_highest_valid c lo hv (hvalid c (by simp)) hlo hh
    | cons c2 rest2 =>
      obtain ⟨⟨ha, lb, hha, hlb, hab⟩, hchain2⟩ := sepChainB_cons_cons c c2 rest2 hchain
      refine ⟨lo, hlo, he, Or.inl ⟨ha, hha, ?_, ?_⟩⟩
      · exact lowest_highest_valid c lo ha (hvalid c (by simp)) hlo hha
      · exact ih ha.asInt tl hchain2
          (fun c3 h3 => hvalid c3 (List.mem_cons_of_mem c h3))
          (fun c3 rest3 heq3 => by
            cases heq3
            exact ⟨lb, hlb, hab⟩)
          (fun habs => by cases habs)
          (fun cl hcl => hlast cl (by rw [List.getLast?_cons_cons]; exact hcl))

/-- Unfolding lemma for `lAny` over a singleton. -/
theorem lAny_singleton (g : Condition) (x : Int) :
    lAny [g] x ↔ g.matchesVal (.int x) = true := by
  simp [lAny]

/-- The separation chain restricts to the tail. -/
theorem sepChainB_tail (c : Condition) (rest : List Condition)
    (h : sepChainB (c :: rest) = true) : sepChainB rest = true := by
  cases rest with
  | nil => rfl
  | cons c2 rest2 => exact (sepChainB_cons_cons c c2 rest2 h).2

/-- Assembly of `IntDomain.checkCoverage` correctness over the sorted,
separated, valid condition list `c0 :: rest`: the run returns and its gaps
match exactly the integers matched by no condition of the list. -/
theorem intAfterSort_exact (c0 : Condition) (rest : List Condition)
    (hsep2 : sepChainB (c0 :: rest) = true)
    (hvalidS : ∀ c ∈ c0 :: rest, condValidB c = true)
    (hnoNE : ∀ c ∈ c0 :: rest, c.isInequality = false) :
    ∃ gaps, intAfterSort c0 rest = .ok gaps
      ∧ ∀ x : Int, lAny gaps x ↔ ¬ lAny (c0 :: rest) x := by
  have hlastS : (c0 :: rest).getLast? = some (rest.getLastD c0) := getLast?_cons_getLastD c0 rest
  unfold intAfterSort
  rcases hpost : (rest.getLastD c0).highest with _ | hv
  · -- no high-end complement
    have hpostgap : intPostGap (rest.getLastD c0) = none := intPostGap_none_of _ hpost
    rcases hpre : intPreGap c0 with _ | p
    · -- no low-end complement: the head is unbounded below
      have hc0low : c0.lowest = none := intPreGap_none c0 hpre
      obtain ⟨hc0, hc0h, hc0m⟩ := lowest_none_sem c0 (hnoNE c0 (by simp)) hc0low
      simp only [hpre, hpostgap, optToList_none, List.nil_append, List.append_nil,
        List.cons_append, hc0h]
      cases rest with
      | nil =>
        exfalso
        have hcontra : c0.highest = none := hpost
        rw [hc0h] at hcontra
        cases hcontra
      | cons c1 rest2 =>
        have hlastR : (c1 :: rest2).getLast? = some ((c1 :: rest2).getLastD c0) := by
          rw [List.getLastD_cons]
          exact getLast?_cons_getLastD c1 rest2
        obtain ⟨⟨ha, lb, hha, hlb, hab⟩, hchain2⟩ := sepChainB_cons_cons c0 c1 rest2 hsep2
        have hahc : hc0 = ha := by
          rw [hc0h] at hha
          exact Option.some.inj hha
        have hswOK : sweepOK hc0.asInt (c1 :: rest2) := by
          have hbase := sweepOK_of_chain (c1 :: rest2) hc0.asInt [] hchain2
            (fun c h => hvalidS c (List.mem_cons_of_mem c0 h))
            (fun c r2 heq2 => by
              cases heq2
              exact ⟨lb, hlb, by rw [hahc]; exact hab⟩)
            (fun habs => by cases habs)
            (fun cl hcl => by
              rw [hlastR] at hcl
              cases hcl
              refine ⟨fun _ => rfl, fun hv2 hhv2 => ?_⟩
              rw [hpost] at hhv2
              cases hhv2)
          rw [List.append_nil] at hbase
          exact hbase
        obtain ⟨gaps0, hsw, hiff⟩ := intSweep_correct hc0 (c1 :: rest2) hswOK
        refine ⟨gaps0, ?_, ?_⟩
        · rw [hsw]
          rfl
        · intro x
          have hub : sweepUB hc0.asInt (c1 :: rest2) x :=
            sweepUB_true_of_last_none _ _ x ⟨(c1 :: rest2).getLastD c0, hlastR, hpost⟩
          have hiff2 : lAny gaps0 x ↔ (hc0.asInt < x ∧ ¬ lAny (c1 :: rest2) x) := by
            rw [hiff x]
            exact ⟨fun ⟨a, b, _⟩ => ⟨a, b⟩, fun ⟨a, b⟩ => ⟨a, b, hub⟩⟩
          rw [hiff2, lAny_cons c0 (c1 :: rest2) x, hc0m x]
          constructor
          · rintro ⟨hgt, hno⟩
            rintro (hcm | hrm)
            · omega
            · exact hno hrm
          · intro hns
            exact ⟨by by_contra hle; push_neg at hle; exact hns (Or.inl (by omega)),
              fun hrm => hns (Or.inr hrm)⟩
    · -- low-end complement present, no high-end complement
      obtain ⟨lo0, hlo0, ⟨ph, hph, hphi⟩, hpm⟩ := intPreGap_sem c0 p hpre
      simp only [hpre, hpostgap, optToList_some, optToList_none, List.nil_append,
        List.append_nil, List.cons_append, hph]
      have hswOK : sweepOK ph.asInt (c0 :: rest) := by
        have hbase := sweepOK_of_chain (c0 :: rest) ph.asInt [] hsep2 hvalidS
          (fun c r2 heq2 => by
            cases heq2
            exact ⟨lo0, hlo0, by omega⟩)
          (fun habs => by cases habs)
          (fun cl hcl => by
            rw [hlastS] at hcl
            cases hcl
            refine ⟨fun _ => rfl, fun hv2 hhv2 => ?_⟩
            rw [hpost] at hhv2
            cases hhv2)
        rw [List.append_nil] at hbase
        exact hbase
      obtain ⟨gaps0, hsw, hiff⟩ := intSweep_correct ph (c0 :: rest) hswOK
      refine ⟨p :: gaps0, ?_, ?_⟩
      · rw [hsw]
        rfl
      · intro x
        have hub : sweepUB ph.asInt (c0 :: rest) x :=
          sweepUB_true_of_last_none _ _ x ⟨rest.getLastD c0, hlastS, hpost⟩
        have hiff2 : lAny gaps0 x ↔ (ph.asInt < x ∧ ¬ lAny (c0 :: rest) x) := by
          rw [hiff x]
          exact ⟨fun ⟨a, b, _⟩ => ⟨a, b⟩, fun ⟨a, b⟩ => ⟨a, b, hub⟩⟩
        have hlowF : lAny (c0 :: rest) x → lo0.asInt ≤ x := by
          rintro ⟨c, hc, hm⟩
          exact chain_lower rest c0 lo0 hsep2 hvalidS hnoNE hlo0 c hc x hm
        rw [lAny_cons, hpm x, hiff2]
        constructor
        · rintro (hle | ⟨hgt, hno⟩)
          · intro hs
            exact absurd (hlowF hs) (by omega)
          · exact hno
        · intro hns
          by_cases h1 : x ≤ lo0.asInt - 1
          · exact Or.inl h1
          · exact Or.inr ⟨by omega, hns⟩
  · -- high-end complement present
    have hpostgap : intPostGap (rest.getLastD c0) = some (highGapFor (rest.getLastD c0) hv) :=
      intPostGap_spec _ hv hpost
    have hgx : ∀ x : Int,
        ((highGapFor (rest.getLastD c0) hv).matchesVal (.int x) = true ↔ hv.asInt < x) :=
      (highGapFor_sem (rest.getLastD c0) hv).2.2
    have hupF : ∀ x : Int, lAny (c0 :: rest) x → x ≤ hv.asInt := by
      rintro x ⟨c, hc, hm⟩
      exact chain_upper rest c0 hv hsep2 hvalidS hnoNE hpost c hc x hm
    rcases hpre : intPreGap c0 with _ | p
    · -- no low-end complement
      have hc0low : c0.lowest = none := intPreGap_none c0 hpre
      obtain ⟨hc0, hc0h, hc0m⟩ := lowest_none_sem c0 (hnoNE c0 (by simp)) hc0low
      simp only [hpre, hpostgap, optToList_none, optToList_some, List.nil_append,
        List.cons_append, hc0h]
      have hswOK : sweepOK hc0.asInt (rest ++ [highGapFor (rest.getLastD c0) hv]) := by
        refine sweepOK_of_chain rest hc0.asInt _ (sepChainB_tail c0 rest hsep2)
          (fun c h => hvalidS c (List.mem_cons_of_mem c0 h))
          ?_ ?_ ?_
        · intro c1 rest2 heq2
          subst heq2
          obtain ⟨⟨ha, lb, hha, hlb, hab⟩, _⟩ := sepChainB_cons_cons c0 c1 rest2 hsep2
          have hahc : hc0 = ha := by
            rw [hc0h] at hha
            exact Option.some.inj hha
          exact ⟨lb, hlb, by rw [hahc]; exact hab⟩
        · intro habs
          subst habs
          have hveq : hv = hc0 := by
            have hpost2 : c0.highest = some hv := hpost
            rw [hc0h] at hpost2
            exact (Option.some.inj hpost2).symm
          have hhook := (postL_hook (([] : List Condition).getLastD c0)).2 hv hpost
          rw [hpostgap, optToList_some] at hhook
          have hais : hc0.asInt = hv.asInt := by rw [hveq]
          rw [hais]
          exact hhook
        · intro cl hcl
          have hcl2 : cl = rest.getLastD c0 := by
            rw [List.getLastD_eq_getLast? c0 rest, hcl]
            rfl
          subst hcl2
          have hhook := postL_hook (rest.getLastD c0)
          rw [hpostgap, optToList_some] at hhook
          exact hhook
      obtain ⟨gaps0, hsw, hiff⟩ := intSweep_correct hc0 _ hswOK
      refine ⟨gaps0 ++ [highGapFor (rest.getLastD c0) hv], ?_, ?_⟩
      · rw [hsw]
        rfl
      · intro x
        have hub : sweepUB hc0.asInt (rest ++ [highGapFor (rest.getLastD c0) hv]) x :=
          sweepUB_true_of_last_none _ _ x
            ⟨highGapFor (rest.getLastD c0) hv, List.getLast?_concat rest,
              (highGapFor_sem (rest.getLastD c0) hv).2.1⟩
        have hiff2 : lAny gaps0 x ↔
            (hc0.asInt < x ∧ ¬ (lAny rest x ∨ hv.asInt < x)) := by
          rw [hiff x]
          constructor
          · rintro ⟨a, b, -⟩
            refine ⟨a, ?_⟩
            rw [lAny_append, lAny_singleton, hgx x] at b
            exact b
          · rintro ⟨a, b⟩
            refine ⟨a, ?_, hub⟩
            rw [lAny_append, lAny_singleton, hgx x]
            exact b
        rw [lAny_append, lAny_singleton, hgx x, hiff2, lAny_cons, hc0m x]
        constructor
        · rintro (⟨hgt, hno⟩ | hgg)
          · rintro (hcm | hrm)
            · omega
            · exact hno (Or.inl hrm)
          · intro hs
            exact absurd (hupF x (by rw [lAny_cons, hc0m x]; exact hs)) (by omega)
        · intro hns
          by_cases h2 : hv.asInt < x
          · exact Or.inr h2
          · refine Or.inl ⟨by by_contra hle; push_neg at hle; exact hns (Or.inl (by omega)), ?_⟩
            rintro (hrm | hg2)
            · exact hns (Or.inr hrm)
            · exact h2 hg2
    · -- both complements present
      obtain ⟨lo0, hlo0, ⟨ph, hph, hphi⟩, hpm⟩ := intPreGap_sem c0 p hpre
      simp only [hpre, hpostgap, optToList_some, List.nil_append,
        List.cons_append, hph]
      have hswOK : sweepOK ph.asInt
          ((c0 :: rest) ++ [highGapFor (rest.getLastD c0) hv]) := by
        refine sweepOK_of_chain (c0 :: rest) ph.asInt _ hsep2 hvalidS
          ?_ ?_ ?_
        · intro c r2 heq2
          cases heq2
          exact ⟨lo0, hlo0, by omega⟩
        · intro habs
          cases habs
        · intro cl hcl
          rw [hlastS] at hcl
          cases hcl
          have hhook := postL_hook (rest.getLastD c0)
          rw [hpostgap, optToList_some] at hhook
          exact hhook
      obtain ⟨gaps0, hsw, hiff⟩ := intSweep_correct ph _ hswOK
      refine ⟨p :: (gaps0 ++ [highGapFor (rest.getLastD c0) hv]), ?_, ?_⟩
      · rw [show ((c0 :: rest) ++ [highGapFor (rest.getLastD c0) hv])
            = c0 :: (rest ++ [highGapFor (rest.getLastD c0) hv]) from rfl] at hsw
        rw [hsw]
        rfl
      · intro x
        have hub : sweepUB ph.asInt ((c0 :: rest) ++ [highGapFor (rest.getLastD c0) hv]) x :=
          sweepUB_true_of_last_none _ _ x
            ⟨highGapFor (rest.getLastD c0) hv, List.getLast?_concat (c0 :: rest),
              (highGapFor_sem (rest.getLastD c0) hv).2.1⟩
        have hiff2 : lAny gaps0 x ↔
            (ph.asInt < x ∧ ¬ (lAny (c0 :: rest) x ∨ hv.asInt < x)) := by
          rw [hiff x]
          constructor
          · rintro ⟨a, b, -⟩
            refine ⟨a, ?_⟩
            rw [lAny_append, lAny_singleton, hgx x] at b
            exact b
          · rintro ⟨a, b⟩
            refine ⟨a, ?_, hub⟩
            rw [lAny_append, lAny_singleton, hgx x]
            exact b
        have hlowF : lAny (c0 :: rest) x → lo0.asInt ≤ x := by
          rintro ⟨c, hc, hm⟩
          exact chain_lower rest c0 lo0 hsep2 hvalidS hnoNE hlo0 c hc x hm
        rw [lAny_cons, lAny_append, lAny_singleton, hgx x, hpm x, hiff2]
        constructor
        · rintro (hle | (⟨hgt, hno⟩ | hgg))
          · intro hs
            exact absurd (hlowF hs) (by omega)
          · intro hs
            exact hno (Or.inl hs)
          · intro hs
            exact absurd (hupF x hs) (by omega)
        · intro hns
          by_cases h1 : x ≤ lo0.asInt - 1
          · exact Or.inl h1
          · by_cases h2 : hv.asInt < x
            · exact Or.inr (Or.inr h2)
            · refine Or.inr (Or.inl ⟨by omega, ?_⟩)
              rintro (hs | hg2)
              · exact hns hs
              · exact h2 hg2

/-- The synthesized low-end complement is a LessThan or LessThanOrEqual
condition. -/
theorem intPreGap_shape (c0 p : Condition) (h : intPreGap c0 = some p) : gapShape p := by
  cases c0 with
  | EqualityCondition v =>
    cases h
    exact Or.inr (Or.inr (Or.inl ⟨v, rfl⟩))
  | InequalityCondition v => cases h
  | LessThanCondition v => cases h
  | LessThanOrEqualToCondition v => cases h
  | GreaterThanCondition v =>
    cases h
    exact Or.inr (Or.inr (Or.inr (Or.inl ⟨vdec (vinc v), rfl⟩)))
  | GreaterThanOrEqualToCondition v =>
    cases h
    exact Or.inr (Or.inr (Or.inl ⟨v, rfl⟩))
  | RangeCondition mn mx =>
    cases h
    exact Or.inr (Or.inr (Or.inl ⟨mn, rfl⟩))

/-- The synthesized high-end complement is a GreaterThan or
GreaterThanOrEqual condition. -/
theorem intPostGap_shape (c p : Condition) (h : intPostGap c = some p) : gapShape p := by
  cases c with
  | EqualityCondition v =>
    cases h
    exact Or.inr (Or.inr (Or.inr (Or.inr (Or.inl ⟨v, rfl⟩))))
  | InequalityCondition v => cases h
  | LessThanCondition v =>
    cases h
    exact Or.inr (Or.inr (Or.inr (Or.inr (Or.inr ⟨vinc (vdec v), rfl⟩))))
  | LessThanOrEqualToCondition v =>
    cases h
    exact Or.inr (Or.inr (Or.inr (Or.inr (Or.inl ⟨v, rfl⟩))))
  | GreaterThanCondition v => cases h
  | GreaterThanOrEqualToCondition v => cases h
  | RangeCondition mn mx =>
    cases h
    exact Or.inr (Or.inr (Or.inr (Or.inr (Or.inl ⟨mx, rfl⟩))))

/-- Every gap emitted by the sweep is an Equality or a Range condition. -/
theorem intSweep_shapes :
    ∀ (l : List Condition) (cov : Option Value) (gaps : List Condition),
      intSweep cov l = .ok gaps → ∀ g ∈ gaps, gapShape g := by
  intro l
  induction l with
  | nil =>
    intro cov gaps h g hg
    cases h
    cases hg
  | cons c rest ih =>
    intro cov gaps h g hg
    rcases cov with _ | hc
    · cases h
      cases hg
    · rcases hlo : c.lowest with _ | lo
      · simp only [intSweep, hlo] at h
        cases h
      · simp only [intSweep, hlo] at h
        by_cases h1 : veq (vdec lo) hc = true
        · rw [if_pos h1] at h
          exact ih c.highest gaps h g hg
        · rw [if_neg h1] at h
          by_cases h2 : veq (vinc hc) (vdec lo) = true
          · rw [if_pos h2] at h
            rcases hr : intSweep c.highest rest with e | gaps0 <;> rw [hr] at h
            · cases h
            · cases h
              rcases List.mem_cons.mp hg with hg1 | hg1
              · exact hg1 ▸ Or.inl ⟨vinc hc, rfl⟩
              · exact ih c.highest gaps0 hr g hg1
          · rw [if_neg h2] at h
            by_cases h3 : vle (vinc hc) (vdec lo) = true
            · rw [if_pos h3] at h
              rcases hr : intSweep c.highest rest with e | gaps0 <;> rw [hr] at h
              · cases h
              · cases h
                rcases List.mem_cons.mp hg with hg1 | hg1
                · exact hg1 ▸ Or.inr (Or.inl ⟨vinc hc, vdec lo, rfl⟩)
                · exact ih c.highest gaps0 hr g hg1
            · rw [if_neg h3] at h
              cases h

/-- Every condition returned by a successful `checkCoverage` body run has
one of the claimed gap shapes. -/
theorem intAfterSort_shapes (c0 : Condition) (rest gaps : List Condition)
    (hok : intAfterSort c0 rest = .ok gaps) : ∀ g ∈ gaps, gapShape g := by
  unfold intAfterSort at hok
  rcases hpre : intPreGap c0 with _ | p <;>
    simp only [hpre, optToList_none, optToList_some, List.nil_append, List.cons_append,
      List.append_assoc] at hok
  · rcases hh : c0.highest with _ | hc <;> simp only [hh] at hok
    · cases hok
    · rcases hsw : intSweep (some hc) (rest ++ optToList (intPostGap (rest.getLastD c0)))
        with e | gaps0 <;> rw [hsw] at hok
      · cases hok
      · cases hok
        intro g hg
        rcases List.mem_append.mp hg with hg1 | hg1
        · exact intSweep_shapes _ _ gaps0 hsw g hg1
        · rcases hpost : intPostGap (rest.getLastD c0) with _ | q
          · rw [hpost] at hg1
            cases hg1
          · rw [hpost, optToList_some] at hg1
            have hgq : g = q := by simpa using hg1
            exact hgq ▸ intPostGap_shape _ q hpost
  · rcases hh : p.highest with _ | hc <;> simp only [hh] at hok
    · cases hok
    · rcases hsw : intSweep (some hc)
          (c0 :: (rest ++ optToList (intPostGap (rest.getLastD c0))))
        with e | gaps0 <;> rw [hsw] at hok
      · cases hok
      · cases hok
        intro g hg
        rcases List.mem_cons.mp hg with hg1 | hg1
        · exact hg1 ▸ intPreGap_shape c0 p hpre
        · rcases List.mem_append.mp hg1 with hg2 | hg2
          · exact intSweep_shapes _ _ gaps0 hsw g hg2
          · rcases hpost : intPostGap (rest.getLastD c0) with _ | q
            · rw [hpost] at hg2
              cases hg2
            · rw [hpost, optToList_some] at hg2
              have hgq : g = q := by simpa using hg2
              exact hgq ▸ intPostGap_shape _ q hpost

/-- Every condition returned by a successful `IntDomain.checkCoverage`
run is an Equality, a Range, or an open-ended Less/Greater condition. -/
theorem intDomainCheckCoverage_shapes (args gaps : List Condition)
    (hok : intDomainCheckCoverage args = .ok gaps) : ∀ g ∈ gaps, gapShape g := by
  unfold intDomainCheckCoverage at hok
  rcases heq : sortConditions args with _ | ⟨c0, rest⟩ <;> rw [heq] at hok
  · cases hok
  · exact intAfterSort_shapes c0 rest gaps hok

/-- Claim C1 (corrected): for every non-empty input collection whose
sorted, inequality-expanded conditions are strictly separated (each
adjacent pair has a defined left `highest()` strictly below the next
`lowest()`) and whose ranges satisfy `min <= max`, `IntDomain.checkCoverage`
returns a sequence of gap conditions, each an Equality, a Range, or an
open-ended Less/Greater condition, such that an integer is matched by some
returned gap exactly when it is matched by no input condition.  Without
the separation hypothesis the equivalence (though not the shape clause)
fails on the code (see the counterexample). -/
theorem claim1_gap_exactness (args : List Condition)
    (hargs : args ≠ [])
    (hval : rangesValidB args = true)
    (hsep : sepChainB (sortConditions args) = true) :
    ∃ gaps, intDomainCheckCoverage args = .ok gaps
      ∧ (∀ g ∈ gaps, gapShape g)
      ∧ ∀ x : Int, lAny gaps x ↔ ¬ lAny args x := by
  rcases heq : sortConditions args with _ | ⟨c0, rest⟩
  · exact absurd heq (sortConditions_ne_nil args hargs)
  · have hnoNE : ∀ c ∈ c0 :: rest, c.isInequality = false := fun c hc =>
      sortConditions_no_inequality args c (heq ▸ hc)
    have hvalidS : ∀ c ∈ c0 :: rest, condValidB c = true := fun c hc =>
      condValid_sortConditions args hval c (heq ▸ hc)
    have hsep2 : sepChainB (c0 :: rest) = true := heq ▸ hsep
    obtain ⟨gaps, hok, hiff⟩ := intAfterSort_exact c0 rest hsep2 hvalidS hnoNE
    have hok2 : intDomainCheckCoverage args = .ok gaps := by
      unfold intDomainCheckCoverage
      rw [heq]
      exact hok
    refine ⟨gaps, hok2, intDomainCheckCoverage_shapes args gaps hok2, ?_⟩
    intro x
    rw [hiff x, ← heq, sortConditions_lAny args x]

/-- Witness for claim C1: the corrected statement applied to the separated
input `[LessThan(0), GreaterThan(10)]`. -/
theorem claim1_gap_exactness_witness :
    ∃ gaps,
      intDomainCheckCoverage [.LessThanCondition (.int 0), .GreaterThanCondition (.int 10)]
        = .ok gaps
      ∧ (∀ g ∈ gaps, gapShape g)
      ∧ ∀ x : Int, lAny gaps x
          ↔ ¬ lAny [.LessThanCondition (.int 0), .GreaterThanCondition (.int 10)] x :=
  claim1_gap_exactness [.LessThanCondition (.int 0), .GreaterThanCondition (.int 10)]
    (by decide) (by decide) (by decide)

/-- Claim C1 counterexample: for the input `[GreaterThan(5),
Range(100,200)]` the run returns `[LessThanOrEqual(5), GreaterThan(200)]`,
and the integer `201` is matched both by the returned gap
`GreaterThan(200)` and by the input condition `GreaterThan(5)` — a value
matched by a returned gap is not matched by none of the inputs. -/
theorem claim1_counterexample :
    intDomainCheckCoverage
        [.GreaterThanCondition (.int 5), .RangeCondition (.int 100) (.int 200)]
      = .ok [.LessThanOrEqualToCondition (.int 5), .GreaterThanCondition (.int 200)]
    ∧ (Condition.GreaterThanCondition (.int 200)).matchesVal (.int 201) = true
    ∧ (Condition.GreaterThanCondition (.int 5)).matchesVal (.int 201) = true :=
  ⟨rfl, rfl, rfl⟩

/-- Witness for claim C6: the normalizing sort applied to a concrete
mixed collection including an inequality. -/
theorem claim6_sortConditions_witness :
    expandInequalities
        [.EqualityCondition (.int 5), .GreaterThanCondition (.int 7),
          .InequalityCondition (.int 0)]
      = ([.EqualityCondition (.int 5), .GreaterThanCondition (.int 7),
          .InequalityCondition (.int 0)] : List Condition).flatMap (fun c =>
          match c with
          | .InequalityCondition v =>
              [Condition.LessThanCondition v, Condition.GreaterThanCondition v]
          | c => [c])
    ∧ List.Perm
        (sortConditions
          [.EqualityCondition (.int 5), .GreaterThanCondition (.int 7),
            .InequalityCondition (.int 0)])
        (expandInequalities
          [.EqualityCondition (.int 5), .GreaterThanCondition (.int 7),
            .InequalityCondition (.int 0)])
    ∧ List.Sorted condLE
        (sortConditions
          [.EqualityCondition (.int 5), .GreaterThanCondition (.int 7),
            .InequalityCondition (.int 0)])
    ∧ ∀ k : Int,
        (sortConditions
            [.EqualityCondition (.int 5), .GreaterThanCondition (.int 7),
              .InequalityCondition (.int 0)]).filter (fun c => c.sort_key.asInt = k)
          = (expandInequalities
              [.EqualityCondition (.int 5), .GreaterThanCondition (.int 7),
                .InequalityCondition (.int 0)]).filter (fun c => c.sort_key.asInt = k) :=
  claim6_sortConditions
    [.EqualityCondition (.int 5), .GreaterThanCondition (.int 7),
      .InequalityCondition (.int 0)]

/-- Witness for claim C7: the boolean domain applied to a single equality
condition, and to nothing unexpected. -/
theorem claim7_enum_checkCoverage_witness :
    ((∃ e, enumDomainCheckCoverage [.bool true, .bool false]
          [.EqualityCondition (.bool false)] = .error e)
        ↔ ∃ a ∈ [Condition.EqualityCondition (.bool false)], a.isEquality = false)
    ∧ (∀ e, enumDomainCheckCoverage [.bool true, .bool false]
          [.EqualityCondition (.bool false)] = .error e →
        ∃ a ∈ [Condition.EqualityCondition (.bool false)], a.isEquality = false
          ∧ e = .unsupportedCondition "EnumDomain" a.typeName)
    ∧ ∀ gaps, enumDomainCheckCoverage [.bool true, .bool false]
          [.EqualityCondition (.bool false)] = .ok gaps →
        (∀ g ∈ gaps, ∃ x, g = .EqualityCondition x)
        ∧ (∀ x : Value,
            (∃ w, Condition.EqualityCondition w ∈ gaps ∧ veq w x = true)
              ↔ ((∃ v ∈ [Value.bool true, Value.bool false], veq v x = true)
                  ∧ ¬ ∃ u, Condition.EqualityCondition u
                        ∈ [Condition.EqualityCondition (.bool false)] ∧ veq u x = true))
        ∧ gaps.Pairwise (fun g g2 => ∀ w u,
            g = Condition.EqualityCondition w → g2 = Condition.EqualityCondition u →
              veq w u = false) :=
  claim7_enum_checkCoverage [.bool true, .bool false] [.EqualityCondition (.bool false)]

end Truthiness
